import Mathlib

/-!
# Simple-HTTP-ST: a verification development for `main.go`

The development embeds the three parts of `main.go` the specification talks about:

* the percentile reporter (`main`, lines 85-113, and `getAvg`, lines 162-170);
* the header parsing at start-up (`main`, lines 67-75);
* the run controller loop (`main`, lines 77-121) together with the dispatcher
  `startTest` (lines 125-160) and its request executors, as an interleaving of
  atomic steps over a shared state.

Conventions.

* `int64` values are exact integers wrapped with `wrap64` where the source adds them.
* `float32` arithmetic (the cut-off indices) is modelled bit-exactly on non-negative
  values: a value is an integer multiple of `2^-24` and every operation rounds to
  24 significant bits, ties to even.
* `float64` arithmetic (the averages) is modelled by `F64`: a finite value is the
  rational number it stands for, and every conversion, division and multiplication
  rounds its exact result to nearest, ties to even (53 significant bits, multiples of
  `2^-1074` in the subnormal range, an infinity from `2^1024` on); `0/0` is `nan`.
-/

namespace SimpleHTTPST

/-! ## Machine numbers -/

/-- Two's-complement wrap of an exact integer into the `int64` range. -/
def wrap64 (z : Int) : Int := (z + 2 ^ 63) % 2 ^ 64 - 2 ^ 63

/-- Number of low-order bits that do not fit when `x` is written with `p`
significant bits: `0` when `x < 2^p`, and otherwise one more than for `x / 2`.
The first argument bounds the number of halvings; `x` itself always suffices. -/
def excessBits (p : Nat) : Nat → Nat → Nat
  | 0, _ => 0
  | fuel + 1, x => if x < 2 ^ p then 0 else excessBits p fuel (x / 2) + 1

/-- Rounding of the natural number `x` to `p` significant bits, to nearest, ties to
even (the IEEE-754 default rounding of a finite non-negative value whose exponent
is in range). -/
def roundBits (p x : Nat) : Nat :=
  let s := excessBits p x x
  if s = 0 then x
  else
    let q := x / 2 ^ s
    let r := x % 2 ^ s
    let half := 2 ^ (s - 1)
    if half < r ∨ (r = half ∧ q % 2 = 1) then (q + 1) * 2 ^ s else q * 2 ^ s

/-- Integer nearest to `a / b`, ties to even. -/
def nearestEven (a b : Nat) : Nat :=
  let q := a / b
  let r := a % b
  if 2 * r < b then q
  else if b < 2 * r then q + 1
  else if q % 2 = 0 then q else q + 1

/-- Value of `float32(n)` for a non-negative `int`, as an integer. -/
def float32OfInt (n : Nat) : Nat := roundBits 24 n

/-- Percentile labels of the report, in the order of lines 95-102. -/
inductive Percentile where
  | p50 | p60 | p70 | p80 | p90 | p95 | p99 | p999
  deriving DecidableEq, Repr

/-- Numerator of the decimal constant written in the source for a label
(0.5, 0.6, 0.7, 0.8, 0.9, 0.95, 0.99, 0.999), over `Percentile.den`. -/
def Percentile.num : Percentile → Nat
  | .p50 => 1 | .p60 => 3 | .p70 => 7 | .p80 => 4
  | .p90 => 9 | .p95 => 19 | .p99 => 99 | .p999 => 999

/-- Denominator of the decimal constant written in the source for a label. -/
def Percentile.den : Percentile → Nat
  | .p50 => 2 | .p60 => 5 | .p70 => 10 | .p80 => 5
  | .p90 => 10 | .p95 => 20 | .p99 => 100 | .p999 => 1000

/-- All labels, in report order. -/
def Percentile.all : List Percentile := [.p50, .p60, .p70, .p80, .p90, .p95, .p99, .p999]

/-- The untyped constant of a label converted to `float32`, as a multiple of `2^-24`
(every constant lies in `[1/2, 1)`, where `float32` values are spaced `2^-24` apart). -/
def Percentile.mantissa (p : Percentile) : Nat := nearestEven (p.num * 2 ^ 24) p.den

/-- The product `float32(n) * c` of line 95-102 in `float32`, as a multiple of `2^-24`. -/
def float32Mul (n : Nat) (p : Percentile) : Nat := roundBits 24 (float32OfInt n * p.mantissa)

/-- Cut-off index `int(float32(len(durations)) * c)` of lines 95-102 (the conversion to
`int` truncates). -/
def startLen (p : Percentile) (n : Nat) : Nat := float32Mul n p / 2 ^ 24

/-- Values of type `float64`: a finite value is the rational number it stands for, always
one that `float64` represents. The two zeros are not distinguished. -/
inductive F64 where
  | val (q : ℚ)
  | inf (negative : Bool)
  | nan
  deriving DecidableEq

/-- The non-negative rational `a / b` in units of `2^-1076`, truncated, with the lowest
bit set when the truncation dropped anything (a sticky bit). The unit is a quarter of
the smallest positive `float64` value `2^-1074`. -/
def scaleSticky (a b : Nat) : Nat :=
  2 * (a * 2 ^ 1075 / b) + (if a * 2 ^ 1075 % b = 0 then 0 else 1)

/-- Rounding of the non-negative rational `a / b` to `float64`, to nearest, ties to even,
in units of `2^-1076`: below `2^-1021` the `float64` values are the multiples of
`2^-1074`, from there on the values with 53 significant bits. -/
def roundF64 (a b : Nat) : Nat :=
  let t := scaleSticky a b
  if t < 2 ^ 55 then nearestEven t 4 * 4 else roundBits 53 t

/-- Rounding of an exact result to `float64`: to nearest, ties to even, and to an
infinity from `2^1024` on. -/
def F64.ofRat (q : ℚ) : F64 :=
  let m : ℚ := (roundF64 q.num.natAbs q.den : ℚ) / 2 ^ 1076
  if 2 ^ 1024 ≤ m then .inf (decide (q < 0)) else .val (if q < 0 then -m else m)

/-- Conversion `float64(z)` of an integer of at most 64 bits: rounding to 53
significant bits. -/
def F64.ofInt (z : Int) : F64 :=
  .val (if z < 0 then -(roundBits 53 z.natAbs : ℚ) else (roundBits 53 z.natAbs : ℚ))

/-- Division of `float64` values: the exact quotient, rounded; a zero divisor gives an
infinity or NaN, never a run-time panic. -/
def F64.div : F64 → F64 → F64
  | .val a, .val b =>
      if b = 0 then (if a = 0 then .nan else .inf (decide (a < 0))) else F64.ofRat (a / b)
  | .val _, .inf _ => .val 0
  | .inf s, .val b => .inf (s != decide (b < 0))
  | _, _ => .nan

/-- Multiplication of `float64` values: the exact product, rounded. -/
def F64.mul : F64 → F64 → F64
  | .val a, .val b => F64.ofRat (a * b)
  | .val a, .inf s => if a = 0 then .nan else .inf (s != decide (a < 0))
  | .inf s, .val b => if b = 0 then .nan else .inf (s != decide (b < 0))
  | .inf s, .inf t => .inf (s != t)
  | _, _ => .nan

/-- The function `math.Round`: nearest integer, halves away from zero; NaN and the
infinities are returned unchanged. The result is exact: an integer next to a `float64`
value below `2^52` has at most 53 bits, and larger `float64` values are integers. -/
def F64.round : F64 → F64
  | .val q => .val (if 0 ≤ q then ⌊q + 1 / 2⌋ else -⌊-q + 1 / 2⌋)
  | x => x

/-! ## Percentile reporter -/

/-- The loop of `getAvg` (lines 163-167): `sum += v` in `int64`. -/
def sumLoop (slice : List Int) : Int := slice.foldl (fun sum v => wrap64 (sum + v)) 0

/-- Function `getAvg` (lines 162-170). -/
def getAvg (slice : List Int) : F64 :=
  F64.div (F64.ofInt (sumLoop slice)) (F64.ofInt slice.length)

/-- The call `sort.SliceStable(durations, less)` of lines 89-91 with
`less i j = durations[i] < durations[j]`: the stable ascending sort. -/
def sortStable (durations : List Int) : List Int := durations.insertionSort (· ≤ ·)

/-- Slice expression `s[i:]`; `none` stands for the run-time panic on `i > len(s)`. -/
def sliceFrom (s : List Int) (i : Nat) : Option (List Int) :=
  if i ≤ s.length then some (s.drop i) else none

/-- Unrounded average printed on line 94, `getAvg(durations)` after the sort. -/
def overallAvg (durations : List Int) : F64 := getAvg (sortStable durations)

/-- Unrounded bucket value of lines 104-111, `getAvg(durations[startLenfForP:])`. -/
def bucketAvg (p : Percentile) (durations : List Int) : Option F64 :=
  (sliceFrom (sortStable durations) (startLen p durations.length)).map getAvg

/-- What the reporter prints. -/
structure Report where
  requestCount : Int
  avg : F64
  buckets : List (Percentile × F64)
  deriving DecidableEq

/-- Lines 104-111 for the labels `ps`; `none` if a slice expression panics. -/
def bucketLines (durations : List Int) : List Percentile → Option (List (Percentile × F64))
  | [] => some []
  | p :: ps =>
      match bucketAvg p durations, bucketLines durations ps with
      | some a, some rest =>
          some ((p, F64.round (F64.div (F64.mul a (.val 100)) (.val 100))) :: rest)
      | _, _ => none

/-- The reporter (lines 86-113) on the pair read from the shared result set. -/
def report (requestCount : Int) (durations : List Int) : Option Report :=
  (bucketLines durations Percentile.all).map fun bs =>
    { requestCount := requestCount
      avg := F64.div (F64.mul (F64.round (overallAvg durations)) (.val 100)) (.val 100)
      buckets := bs }

/-- Statistics of a report: the average and the eight bucket values. -/
def Report.statistics (r : Report) : List F64 := r.avg :: r.buckets.map Prod.snd

/-! ## Start-up: header flags (lines 50-75) -/

/-- Scanning loop of `strings.Split(s, sep)` for a non-empty separator: the pieces of
`s` between the leftmost non-overlapping occurrences of `sep`. The counter is the
number of characters of a matched separator still to skip, `cur` the piece read so
far, reversed. -/
def splitAux (sep : List Char) : List Char → Nat → List Char → List (List Char)
  | [], _, cur => [cur.reverse]
  | _ :: rest, skip + 1, cur => splitAux sep rest skip cur
  | c :: rest, 0, cur =>
      if sep.isPrefixOf (c :: rest) then cur.reverse :: splitAux sep rest (sep.length - 1) []
      else splitAux sep rest 0 (c :: cur)

/-- Library call `strings.Split(s, sep)` for a non-empty `sep`. -/
def split (s sep : String) : List String :=
  (splitAux sep.toList s.toList 0 []).map String.mk

/-- The map `h` of line 68 as an association list with unique keys. -/
abbrev HeaderMap := List (String × String)

/-- Assignment `h[k] = v`. -/
def HeaderMap.set (h : HeaderMap) (k v : String) : HeaderMap :=
  (k, v) :: h.filter (fun e => e.1 != k)

/-- Lookup `h[k]`. -/
def HeaderMap.get (h : HeaderMap) (k : String) : Option String :=
  (h.find? (fun e => e.1 == k)).map Prod.snd

/-- Loop of lines 69-75 started with the map `h`; an error is the panic of line 72. -/
def parseHeadersFrom (h : HeaderMap) : List String → Except String HeaderMap
  | [] => .ok h
  | v :: rest =>
      match split v ": " with
      | [name, value] => parseHeadersFrom (h.set name value) rest
      | _ => .error ("Can't convert " ++ v ++ " to header")

/-- Header parsing of lines 67-75. -/
def parseHeaders (headers : List String) : Except String HeaderMap :=
  parseHeadersFrom [] headers

/-- Values set by `flag.Parse()` (lines 36-50). -/
structure Flags where
  goroutineCount : Int
  headers : List String
  durationString : String
  args : List String

/-- What the run is started with once lines 50-75 have passed. -/
structure RunConfig where
  url : String
  headers : HeaderMap
  goroutineCount : Int
  duration : Int

/-- Lines 50-75 of `main`; an error is a panic, which ends the process. The library
calls `url.ParseRequestURI` and `time.ParseDuration` are parameters. -/
def startup (parseRequestURI : String → Bool) (parseDuration : String → Option Int)
    (f : Flags) : Except String RunConfig :=
  match f.args with
  | [u] =>
      if parseRequestURI u then
        match parseDuration f.durationString with
        | some d =>
            match parseHeaders f.headers with
            | .ok h => .ok { url := u, headers := h, goroutineCount := f.goroutineCount,
                             duration := d }
            | .error e => .error e
        | none => .error "time: invalid duration"
      else .error "invalid URI for request"
  | _ => .error "Need to set 1 URL for Stress Test"

/-! ## Run controller, dispatcher and executors (lines 77-160)

The goroutines are interleaved at the granularity of their accesses to shared state:
the channel `limit`, the counter `*requestsCounter`, the slice `*requestsDurations`
and the deadline of `ctxTimeout`. The read and the write of `*requestsCounter += 1`
and of `*requestsDurations = append(*requestsDurations, elapsed)` are separate
steps, since the source does not synchronise them. The call `http.NewRequest` of
line 135 is taken to succeed: its argument is the URL that start-up has validated. -/

/-- Result of `client.Do(req)` (line 148). A nil response comes with an error; a
non-nil response with an error is what a failed redirect policy returns. -/
inductive DoResult where
  | response
  | errorNoResponse (err : String)
  | errorWithResponse (err : String)
  deriving DecidableEq

/-- Program points of a request executor (the goroutine of lines 130-158). -/
inductive ExecPc where
  /-- Lines 135-148: the request is built and `client.Do` has not returned. -/
  | calling
  /-- Line 152 dereferenced a nil response; the deferred receive is pending. -/
  | panicking
  /-- Line 153 done: `elapsed` is measured. -/
  | measured (elapsed : Int)
  /-- Line 155, after the read of `*requestsCounter`. -/
  | loadedCounter (elapsed : Int) (c : Int)
  /-- Line 155, after the write. -/
  | counted (elapsed : Int)
  /-- Line 156, after the read of `*requestsDurations`. -/
  | loadedDurations (elapsed : Int) (ds : List Int)
  /-- Line 156, after the write; the deferred calls are pending. -/
  | appended
  deriving DecidableEq

/-- Program points of `startTest` (lines 125-160). -/
inductive DispPc where
  /-- Not started by `main`. -/
  | idle
  /-- At the send `limit <- struct{}{}` of line 128. -/
  | sending
  /-- At the `go` statement of line 130. -/
  | spawning
  deriving DecidableEq

/-- Program points of `main` from line 83 on. -/
inductive MainPc where
  /-- At the `select` of line 84. -/
  | selecting
  /-- Line 86 done: `durations` is read. -/
  | copiedDurations (durations : List Int)
  /-- Line 87 done: `requestCount` is read; lines 89-113 print the report of this
  pair and return, which ends the process. -/
  | returned (requestCount : Int) (durations : List Int)
  deriving DecidableEq

/-- State of the running program. The fields `iterations` and `launchedAt` are
instrumentation: they record the loop iterations of `main` and those among them in
which `go startTest(...)` was executed. The counter is an exact integer: it grows by
at most one per request, far from the `int` range. -/
structure Sys where
  deadline : Bool
  main : MainPc
  testAledyStarted : Bool
  iterations : Nat
  launchedAt : List Nat
  dispatcher : DispPc
  limit : Nat
  execs : List ExecPc
  requestsCounter : Int
  requestsDurations : List Int
  warnings : List String
  crashed : Bool
  deriving DecidableEq

/-- Steps the scheduler and the environment can choose. -/
inductive Action where
  /-- The deadline of `ctxTimeout` expires. -/
  | timer
  /-- Function `main` runs to its next program point. -/
  | mainStep
  /-- Function `startTest` runs to its next program point. -/
  | dispatch
  /-- In executor `i`, `client.Do` returns `r`; lines 149-153 run and measure `elapsed`. -/
  | doReturns (i : Nat) (r : DoResult) (elapsed : Int)
  /-- Executor `i` runs to its next program point. -/
  | exec (i : Nat)
  deriving DecidableEq

/-- State at line 83; `expired` tells whether the deadline has passed already (a
duration that is not positive). -/
def Sys.init (expired : Bool) : Sys :=
  { deadline := expired, main := .selecting, testAledyStarted := false, iterations := 0,
    launchedAt := [], dispatcher := .idle, limit := 0, execs := [], requestsCounter := 0,
    requestsDurations := [], warnings := [], crashed := false }

/-- The process has ended: `main` returned or a panic was not recovered. -/
def Sys.ended (s : Sys) : Bool :=
  s.crashed || match s.main with
    | .returned _ _ => true
    | _ => false

/-- Number of requests in flight: executors launched and not yet finished. -/
def Sys.inFlight (s : Sys) : Nat := s.execs.length

/-- One step of `main` (lines 83-121). -/
def mainStep (s : Sys) : Option Sys :=
  match s.main with
  | .selecting =>
      if s.deadline then
        some { s with main := .copiedDurations s.requestsDurations }
      else if s.testAledyStarted then
        some { s with iterations := s.iterations + 1 }
      else
        some { s with testAledyStarted := true, iterations := s.iterations + 1,
                      launchedAt := s.launchedAt ++ [s.iterations],
                      dispatcher := .sending, limit := 0 }
  | .copiedDurations d => some { s with main := .returned s.requestsCounter d }
  | .returned _ _ => none

/-- One step of `startTest` with a channel of capacity `N` (lines 126-130); `none`
when the send blocks. -/
def dispatchStep (N : Nat) (s : Sys) : Option Sys :=
  match s.dispatcher with
  | .idle => none
  | .sending => if s.limit < N then some { s with limit := s.limit + 1, dispatcher := .spawning }
                else none
  | .spawning => some { s with execs := s.execs ++ [.calling], dispatcher := .sending }

/-- Return of `client.Do` in executor `i` and lines 149-153. -/
def doReturnsStep (i : Nat) (r : DoResult) (elapsed : Int) (s : Sys) : Option Sys :=
  match s.execs.get? i with
  | some .calling =>
      match r with
      | .response => some { s with execs := s.execs.set i (.measured elapsed) }
      | .errorNoResponse err =>
          some { s with execs := s.execs.set i .panicking, warnings := s.warnings ++ [err] }
      | .errorWithResponse err =>
          some { s with execs := s.execs.set i (.measured elapsed),
                        warnings := s.warnings ++ [err] }
  | _ => none

/-- One step of executor `i` after `client.Do` has returned (lines 152-157 and the
deferred calls); `none` when the executor cannot move. -/
def execStep (i : Nat) (s : Sys) : Option Sys :=
  match s.execs.get? i with
  | some .panicking =>
      if 0 < s.limit then
        some { s with limit := s.limit - 1, execs := s.execs.eraseIdx i, crashed := true }
      else none
  | some (.measured e) => some { s with execs := s.execs.set i (.loadedCounter e s.requestsCounter) }
  | some (.loadedCounter e c) =>
      some { s with execs := s.execs.set i (.counted e), requestsCounter := c + 1 }
  | some (.counted e) =>
      some { s with execs := s.execs.set i (.loadedDurations e s.requestsDurations) }
  | some (.loadedDurations e ds) =>
      some { s with execs := s.execs.set i .appended, requestsDurations := ds ++ [e] }
  | some .appended =>
      if 0 < s.limit then some { s with limit := s.limit - 1, execs := s.execs.eraseIdx i }
      else none
  | _ => none

/-- One step of the program with `goroutineCount = N`. -/
def step (N : Nat) (a : Action) (s : Sys) : Option Sys :=
  if s.ended then none
  else
    match a with
    | .timer => some { s with deadline := true }
    | .mainStep => mainStep s
    | .dispatch => dispatchStep N s
    | .doReturns i r e => doReturnsStep i r e s
    | .exec i => execStep i s

/-- Execution of a schedule. -/
def run (N : Nat) : List Action → Sys → Option Sys
  | [], s => some s
  | a :: rest, s => (step N a s).bind (run N rest)

/-- States the program can reach from line 83. -/
def Reachable (N : Nat) (s : Sys) : Prop :=
  ∃ expired sched, run N sched (Sys.init expired) = some s

/-- Number of executors that have written the counter and not yet the slice. -/
def midUpdate (s : Sys) : Nat :=
  (s.execs.filter fun pc =>
    match pc with
    | .counted _ => true
    | .loadedDurations _ _ => true
    | _ => false).length

/-! ## Quantities named by the specification -/

/-- Percentile label as the specification writes it: 50, 60, 70, 80, 90, 95, 99, 99.9. -/
def Percentile.label : Percentile → ℚ
  | .p50 => 50 | .p60 => 60 | .p70 => 70 | .p80 => 80
  | .p90 => 90 | .p95 => 95 | .p99 => 99 | .p999 => 999 / 10

/-- Cut-off index of the specification, `floor(count * p / 100)`, in exact arithmetic. -/
def cutoffSpec (p : Percentile) (count : Nat) : Int := ⌊(count : ℚ) * (p.label / 100)⌋

/-- Arithmetic mean of a list of samples, in exact arithmetic. -/
def mean (samples : List Int) : ℚ := (samples.sum : ℚ) / (samples.length : ℚ)

/-- Comparison `x <= y` of `float64` values; NaN is not comparable. -/
def F64.le : F64 → F64 → Prop
  | .val a, .val b => a ≤ b
  | .inf s, .inf t => s = true ∨ t = false
  | .inf s, .val _ => s = true
  | .val _, .inf t => t = false
  | _, _ => False

/-- Value the specification assigns to the header `name`: the `Value` of the last flag
value of the form `"Name: Value"` with that name. -/
def headerSpec (headers : List String) (name : String) : Option String :=
  headers.reverse.findSome? fun v =>
    match split v ": " with
    | [n, value] => if n = name then some value else none
    | _ => none

/-- The program from `flag.Parse()` on: start-up, then the run under a schedule. An
error is a start-up panic: no state of the run exists and no request is made. -/
def program (parseRequestURI : String → Bool) (parseDuration : String → Option Int)
    (f : Flags) (expired : Bool) (sched : List Action) : Except String (Option Sys) :=
  (startup parseRequestURI parseDuration f).map fun cfg =>
    run cfg.goroutineCount.toNat sched (Sys.init expired)

/-! ## Invariants of the interleaved execution -/

/-- Admission invariant: the channel `limit` never holds more than `N` tokens, every
token belongs to a live executor or to the executor the dispatcher is about to
launch, and nothing runs before `main` has started the dispatcher. -/
def SlotInv (N : Nat) (s : Sys) : Prop :=
  s.limit ≤ N ∧
  s.execs.length + (if s.dispatcher = .spawning then 1 else 0) = s.limit ∧
  (s.testAledyStarted = false → s.dispatcher = .idle ∧ s.execs = [] ∧ s.limit = 0)

/-- Launch invariant of the loop of `main`: the dispatcher has been started in no
iteration or in iteration 0 only, the flag `testAledyStarted` records which, and `main`
leaves the `select` only once the deadline has expired. -/
def LaunchInv (s : Sys) : Prop :=
  ((s.launchedAt = [] ∧ s.testAledyStarted = false ∧ s.iterations = 0) ∨
   (s.launchedAt = [0] ∧ s.testAledyStarted = true ∧ 1 ≤ s.iterations)) ∧
  (s.main ≠ .selecting → s.deadline = true)

/-- Result-set invariant for a single admission slot: the counter is ahead of the slice
length by the number of executors between their two writes, the values an executor
has read are still current, and what `main` has read is not ahead of the counter. -/
def CountInv (s : Sys) : Prop :=
  s.requestsCounter = s.requestsDurations.length + midUpdate s ∧
  (∀ e c, ExecPc.loadedCounter e c ∈ s.execs → c = s.requestsCounter) ∧
  (∀ e ds, ExecPc.loadedDurations e ds ∈ s.execs → ds = s.requestsDurations) ∧
  (∀ d, s.main = .copiedDurations d → (d.length : Int) ≤ s.requestsCounter) ∧
  (∀ c d, s.main = .returned c d → (d.length : Int) ≤ c)

/-! ## Rounding to 24 significant bits -/

theorem excessBits_spec (p : Nat) : ∀ (fuel x : Nat), x ≤ fuel →
    (x < 2 ^ p → excessBits p fuel x = 0) ∧
    (2 ^ p ≤ x → 1 ≤ excessBits p fuel x ∧ 2 ^ (p + excessBits p fuel x - 1) ≤ x ∧
      x < 2 ^ (p + excessBits p fuel x)) := by
  intro fuel
  induction fuel with
  | zero =>
    intro x hx
    have hx0 : x = 0 := by omega
    subst hx0
    refine ⟨fun _ => rfl, fun h => ?_⟩
    have := Nat.one_le_two_pow (n := p)
    omega
  | succ fuel ih =>
    intro x hx
    refine ⟨fun h => by simp [excessBits, h], fun h => ?_⟩
    have hp1 : 1 ≤ 2 ^ p := Nat.one_le_two_pow
    have hnlt : ¬ x < 2 ^ p := by omega
    have hhalf : x / 2 ≤ fuel := by omega
    obtain ⟨ih0, ih1⟩ := ih (x / 2) hhalf
    simp only [excessBits, hnlt, if_false]
    by_cases hlt : x / 2 < 2 ^ p
    · rw [ih0 hlt]
      refine ⟨by omega, ?_, ?_⟩
      · simpa using h
      · have : 2 ^ (p + (0 + 1)) = 2 * 2 ^ p := by rw [← Nat.add_assoc, Nat.add_zero, pow_succ]; ring
        rw [this]; omega
    · have hge : 2 ^ p ≤ x / 2 := by omega
      obtain ⟨e1, e2, e3⟩ := ih1 hge
      generalize excessBits p fuel (x / 2) = e at e1 e2 e3
      refine ⟨by omega, ?_, ?_⟩
      · have : p + (e + 1) - 1 = (p + e - 1) + 1 := by omega
        rw [this, pow_succ]; omega
      · have : p + (e + 1) = (p + e) + 1 := by omega
        rw [this, pow_succ]; omega

theorem roundBits_of_lt {p x : Nat} (h : x < 2 ^ p) : roundBits p x = x := by
  have := (excessBits_spec p x x le_rfl).1 h
  simp [roundBits, this]

/-- The shift used by `roundBits` is determined by the binade of the operand. -/
theorem excessBits_eq {p x t : Nat} (ht : 1 ≤ t) (h1 : 2 ^ (p + t - 1) ≤ x)
    (h2 : x < 2 ^ (p + t)) : excessBits p x x = t := by
  have hp : 2 ^ p ≤ x := le_trans (Nat.pow_le_pow_right (by norm_num) (by omega)) h1
  obtain ⟨e1, e2, e3⟩ := (excessBits_spec p x x le_rfl).2 hp
  generalize excessBits p x x = e at e1 e2 e3
  have a1 : p + t - 1 < p + e := (Nat.pow_lt_pow_iff_right (by norm_num : 1 < 2)).1 (lt_of_le_of_lt h1 e3)
  have a2 : p + e - 1 < p + t := (Nat.pow_lt_pow_iff_right (by norm_num : 1 < 2)).1 (lt_of_le_of_lt e2 h2)
  omega

theorem roundBits_of_bounds {p x t : Nat} (ht : 1 ≤ t) (h1 : 2 ^ (p + t - 1) ≤ x)
    (h2 : x < 2 ^ (p + t)) :
    roundBits p x =
      if 2 ^ (t - 1) < x % 2 ^ t ∨ (x % 2 ^ t = 2 ^ (t - 1) ∧ x / 2 ^ t % 2 = 1)
      then (x / 2 ^ t + 1) * 2 ^ t else x / 2 ^ t * 2 ^ t := by
  have hs := excessBits_eq ht h1 h2
  have ht0 : t ≠ 0 := by omega
  simp [roundBits, hs, ht0]

/-- Shape of the operand of a rounding that really rounds. -/
theorem exists_shift {p x : Nat} (h : 2 ^ p ≤ x) :
    ∃ t, 1 ≤ t ∧ 2 ^ (p + t - 1) ≤ x ∧ x < 2 ^ (p + t) := by
  obtain ⟨e1, e2, e3⟩ := (excessBits_spec p x x le_rfl).2 h
  exact ⟨_, e1, e2, e3⟩

/-- In the binade with shift `t` the rounded value is one of the two neighbouring
multiples of `2^t`. -/
theorem roundBits_cases {p x t : Nat} (ht : 1 ≤ t) (h1 : 2 ^ (p + t - 1) ≤ x)
    (h2 : x < 2 ^ (p + t)) :
    (roundBits p x = x / 2 ^ t * 2 ^ t ∧ 2 * (x % 2 ^ t) ≤ 2 ^ t) ∨
    (roundBits p x = (x / 2 ^ t + 1) * 2 ^ t ∧ 2 ^ t ≤ 2 * (x % 2 ^ t)) := by
  rw [roundBits_of_bounds ht h1 h2]
  have hpow : 2 ^ t = 2 * 2 ^ (t - 1) := by
    have : t = (t - 1) + 1 := by omega
    conv_lhs => rw [this, pow_succ]
    ring
  split_ifs with hc
  · right
    refine ⟨rfl, ?_⟩
    rcases hc with hc | ⟨hc, _⟩ <;> omega
  · left
    refine ⟨rfl, ?_⟩
    by_contra hcon
    apply hc
    left
    omega

theorem roundBits_fixed {p q e : Nat} (hq : q < 2 ^ p) : roundBits p (q * 2 ^ e) = q * 2 ^ e := by
  by_cases hlt : q * 2 ^ e < 2 ^ p
  · exact roundBits_of_lt hlt
  · obtain ⟨t, ht, h1, h2⟩ := exists_shift (Nat.le_of_not_lt hlt)
    have hlt2 : q * 2 ^ e < 2 ^ (p + e) := by
      rw [pow_add]
      exact Nat.mul_lt_mul_of_lt_of_le hq le_rfl (Nat.two_pow_pos _)
    have hte : p + t - 1 < p + e :=
      (Nat.pow_lt_pow_iff_right (by norm_num : 1 < 2)).1 (lt_of_le_of_lt h1 hlt2)
    have hle : t ≤ e := by omega
    have hdvd : 2 ^ t ∣ q * 2 ^ e := Dvd.dvd.mul_left (pow_dvd_pow 2 hle) q
    have hmod : q * 2 ^ e % 2 ^ t = 0 := Nat.mod_eq_zero_of_dvd hdvd
    rw [roundBits_of_bounds ht h1 h2, hmod]
    have hpos : 0 < 2 ^ (t - 1) := Nat.two_pow_pos _
    have hc : ¬ (2 ^ (t - 1) < 0 ∨ (0 = 2 ^ (t - 1) ∧ q * 2 ^ e / 2 ^ t % 2 = 1)) := by
      rintro (h | ⟨h, _⟩) <;> omega
    rw [if_neg hc]
    exact Nat.div_mul_cancel hdvd

/-- Bounds of a rounded value inside its binade. -/
theorem roundBits_binade {p x t : Nat} (hp : 1 ≤ p) (ht : 1 ≤ t) (h1 : 2 ^ (p + t - 1) ≤ x)
    (h2 : x < 2 ^ (p + t)) :
    2 ^ (p + t - 1) ≤ roundBits p x ∧ roundBits p x ≤ 2 ^ (p + t) := by
  have hpt : 2 ^ (p + t) = 2 ^ p * 2 ^ t := pow_add 2 p t
  have hdvd1 : 2 ^ t ∣ 2 ^ (p + t) := ⟨2 ^ p, by rw [hpt]; ring⟩
  have hpos : 0 < 2 ^ t := Nat.two_pow_pos _
  have hq : x / 2 ^ t < 2 ^ p := by
    rw [Nat.div_lt_iff_lt_mul hpos]; rw [← hpt]; exact h2
  have hlow : 2 ^ (p + t - 1) ≤ x / 2 ^ t * 2 ^ t := by
    have : p + t - 1 = (p - 1) + t := by omega
    rw [this, pow_add] at h1 ⊢
    have : 2 ^ (p - 1) ≤ x / 2 ^ t := by
      rw [Nat.le_div_iff_mul_le hpos]; exact h1
    exact Nat.mul_le_mul_right _ this
  rcases roundBits_cases ht h1 h2 with ⟨h, _⟩ | ⟨h, _⟩
  · rw [h]
    refine ⟨hlow, ?_⟩
    exact le_trans (Nat.div_mul_le_self x (2 ^ t)) (le_of_lt h2)
  · rw [h]
    refine ⟨le_trans hlow (Nat.mul_le_mul_right _ (Nat.le_succ _)), ?_⟩
    rw [hpt]
    exact Nat.mul_le_mul_right _ hq

theorem roundBits_mono {p x y : Nat} (hp : 1 ≤ p) (hxy : x ≤ y) : roundBits p x ≤ roundBits p y := by
  by_cases hy : y < 2 ^ p
  · rw [roundBits_of_lt hy, roundBits_of_lt (lt_of_le_of_lt hxy hy)]; exact hxy
  obtain ⟨ty, hty, hy1, hy2⟩ := exists_shift (Nat.le_of_not_lt hy)
  have hby := roundBits_binade hp hty hy1 hy2
  by_cases hx : x < 2 ^ p
  · rw [roundBits_of_lt hx]
    have : 2 ^ p ≤ 2 ^ (p + ty - 1) := Nat.pow_le_pow_right (by norm_num) (by omega)
    omega
  obtain ⟨tx, htx, hx1, hx2⟩ := exists_shift (Nat.le_of_not_lt hx)
  have hbx := roundBits_binade hp htx hx1 hx2
  have hlt : p + tx - 1 < p + ty :=
    (Nat.pow_lt_pow_iff_right (by norm_num : 1 < 2)).1 (lt_of_le_of_lt hx1 (lt_of_le_of_lt hxy hy2))
  by_cases hne : tx = ty
  · subst hne
    have hpos : 0 < 2 ^ tx := Nat.two_pow_pos _
    have hdiv : x / 2 ^ tx ≤ y / 2 ^ tx := Nat.div_le_div_right hxy
    rcases Nat.lt_or_ge (x / 2 ^ tx) (y / 2 ^ tx) with hq | hq
    · have hxle : roundBits p x ≤ (x / 2 ^ tx + 1) * 2 ^ tx := by
        rcases roundBits_cases htx hx1 hx2 with ⟨h, _⟩ | ⟨h, _⟩ <;> rw [h]
        exact Nat.mul_le_mul_right _ (Nat.le_succ _)
      have hyge : y / 2 ^ tx * 2 ^ tx ≤ roundBits p y := by
        rcases roundBits_cases hty hy1 hy2 with ⟨h, _⟩ | ⟨h, _⟩ <;> rw [h]
        exact Nat.mul_le_mul_right _ (Nat.le_succ _)
      exact le_trans hxle (le_trans (Nat.mul_le_mul_right _ hq) hyge)
    · have hqeq : x / 2 ^ tx = y / 2 ^ tx := le_antisymm hdiv hq
      have hr : x % 2 ^ tx ≤ y % 2 ^ tx := by
        have ex := Nat.div_add_mod x (2 ^ tx)
        have ey := Nat.div_add_mod y (2 ^ tx)
        rw [hqeq] at ex
        omega
      rw [roundBits_of_bounds htx hx1 hx2, roundBits_of_bounds hty hy1 hy2, hqeq]
      split_ifs with c1 c2 c2
      · exact le_rfl
      · exfalso
        apply c2
        rcases c1 with c1 | ⟨c1, c1b⟩
        · left; omega
        · rcases Nat.lt_or_ge (2 ^ (tx - 1)) (y % 2 ^ tx) with h | h
          · left; exact h
          · right; exact ⟨by omega, c1b⟩
      · exact Nat.mul_le_mul_right _ (Nat.le_succ _)
      · exact le_rfl
  · have h3 : 2 ^ (p + tx) ≤ 2 ^ (p + ty - 1) := Nat.pow_le_pow_right (by norm_num) (by omega)
    omega

/-- A rounding to `p` bits increases its operand by at most one part in `2^p`. -/
theorem roundBits_le {p x : Nat} : 2 ^ p * roundBits p x ≤ (2 ^ p + 1) * x := by
  by_cases hx : x < 2 ^ p
  · rw [roundBits_of_lt hx]; exact Nat.mul_le_mul_right _ (Nat.le_succ _)
  obtain ⟨t, ht, h1, h2⟩ := exists_shift (Nat.le_of_not_lt hx)
  have hpow : 2 ^ t = 2 * 2 ^ (t - 1) := by
    have : t = (t - 1) + 1 := by omega
    conv_lhs => rw [this, pow_succ]
    ring
  have hpt : 2 ^ (p + t - 1) = 2 ^ p * 2 ^ (t - 1) := by
    have : p + t - 1 = p + (t - 1) := by omega
    rw [this, pow_add]
  have hdm := Nat.div_add_mod x (2 ^ t)
  have hmul : 2 ^ t * (x / 2 ^ t) = x / 2 ^ t * 2 ^ t := Nat.mul_comm _ _
  rcases roundBits_cases ht h1 h2 with ⟨h, _⟩ | ⟨h, hr⟩
  · rw [h]
    have : x / 2 ^ t * 2 ^ t ≤ x := Nat.div_mul_le_self x (2 ^ t)
    calc 2 ^ p * (x / 2 ^ t * 2 ^ t) ≤ 2 ^ p * x := Nat.mul_le_mul_left _ this
      _ ≤ (2 ^ p + 1) * x := Nat.mul_le_mul_right _ (Nat.le_succ _)
  · rw [h]
    have hup : (x / 2 ^ t + 1) * 2 ^ t ≤ x + 2 ^ (t - 1) := by
      rw [Nat.add_mul, one_mul]; omega
    calc 2 ^ p * ((x / 2 ^ t + 1) * 2 ^ t) ≤ 2 ^ p * (x + 2 ^ (t - 1)) := Nat.mul_le_mul_left _ hup
      _ = 2 ^ p * x + 2 ^ p * 2 ^ (t - 1) := Nat.mul_add _ _ _
      _ ≤ 2 ^ p * x + x := by rw [← hpt]; omega
      _ = (2 ^ p + 1) * x := by ring

theorem mantissa_values :
    Percentile.all.map Percentile.mantissa =
      [8388608, 10066330, 11744051, 13421773, 15099494, 15938355, 16609444, 16760439] := by
  decide

theorem mantissa_le (p : Percentile) : p.mantissa ≤ 16760439 := by
  cases p <;> decide

/-- Every cut-off index of a non-empty sample lies strictly below the sample count. -/
theorem startLen_lt (p : Percentile) {n : Nat} (hn : 1 ≤ n) : startLen p n < n := by
  unfold startLen float32Mul float32OfInt
  rw [Nat.div_lt_iff_lt_mul (Nat.two_pow_pos 24)]
  have h1 := @roundBits_le 24 (roundBits 24 n * p.mantissa)
  have h2 := @roundBits_le 24 n
  have h3 : roundBits 24 n * p.mantissa ≤ roundBits 24 n * 16760439 :=
    Nat.mul_le_mul_left _ (mantissa_le p)
  generalize roundBits 24 (roundBits 24 n * p.mantissa) = y at h1 ⊢
  generalize roundBits 24 n * p.mantissa = x at h1 h3
  generalize roundBits 24 n = a at h2 h3
  norm_num at h1 h2 ⊢
  omega

theorem startLen_small (p : Percentile) {n : Nat} (hn : n < 2 ^ 24) :
    startLen p n = roundBits 24 (n * p.mantissa) / 2 ^ 24 := by
  simp [startLen, float32Mul, float32OfInt, roundBits_of_lt hn]

/-- A product that lies between two `float32` values inside one unit interval is
truncated to the integer below. -/
theorem startLen_sandwich (p : Percentile) {n t : Nat} (hn : n < 2 ^ 24) (ht : t + 1 ≤ 2 ^ 15)
    (hlow : t * 2 ^ 24 ≤ n * p.mantissa)
    (hhigh : n * p.mantissa ≤ ((t + 1) * 512 - 1) * 2 ^ 15) : startLen p n = t := by
  rw [startLen_small p hn]
  have hfix1 : roundBits 24 (t * 2 ^ 24) = t * 2 ^ 24 :=
    roundBits_fixed (by norm_num at ht ⊢; omega)
  have hfix2 : roundBits 24 (((t + 1) * 512 - 1) * 2 ^ 15) = ((t + 1) * 512 - 1) * 2 ^ 15 :=
    roundBits_fixed (by norm_num at ht ⊢; omega)
  have h1 := roundBits_mono (p := 24) (by norm_num) hlow
  have h2 := roundBits_mono (p := 24) (by norm_num) hhigh
  rw [hfix1] at h1
  rw [hfix2] at h2
  generalize roundBits 24 (n * p.mantissa) = y at h1 h2
  norm_num at h1 h2 ht ⊢
  omega

/-- A product that misses an integer multiple of `2^24` by less than a quarter of the
relative spacing rounds up to that multiple. -/
theorem roundBits_up {T D : Nat} (hD : 2 * D < T) (hT : T < 2 ^ 24) :
    roundBits 24 (T * 2 ^ 24 - D) = T * 2 ^ 24 := by
  rcases Nat.eq_zero_or_pos D with hD0 | hDpos
  · subst hD0
    simpa using roundBits_fixed (p := 24) (e := 24) hT
  have hx : 2 ^ 24 ≤ T * 2 ^ 24 - D := by norm_num at hT ⊢; omega
  obtain ⟨t, ht, h1, h2⟩ := exists_shift hx
  have e1 : 2 ^ (24 + t - 1) = 2 ^ 23 * 2 ^ t := by
    have : 24 + t - 1 = 23 + t := by omega
    rw [this, pow_add]
  have e2 : 2 ^ (24 + t) = 2 ^ 24 * 2 ^ t := pow_add 2 24 t
  have hcases := roundBits_cases ht h1 h2
  rw [e1] at h1
  rw [e2] at h2
  have hTS : T ≤ 2 ^ t := by
    generalize 2 ^ t = S at h1 h2
    norm_num at h1 h2 hT
    omega
  have hS25 : 2 ^ t < 2 ^ 25 := by
    generalize 2 ^ t = S at h1 h2
    norm_num at h1 h2 hT ⊢
    omega
  have ht24 : t ≤ 24 := by
    have := (Nat.pow_lt_pow_iff_right (by norm_num : 1 < 2)).1 hS25
    omega
  have e3 : (2 : Nat) ^ 24 = 2 ^ (24 - t) * 2 ^ t := by
    rw [← pow_add]; congr 1; omega
  have hQpos : 1 ≤ T * 2 ^ (24 - t) := by
    have : 1 ≤ 2 ^ (24 - t) := Nat.one_le_two_pow
    have hT1 : 1 ≤ T := by omega
    exact Nat.mul_le_mul hT1 this
  obtain ⟨Q, hQ⟩ : ∃ Q, T * 2 ^ (24 - t) = Q + 1 := ⟨T * 2 ^ (24 - t) - 1, by omega⟩
  have hTe : T * 2 ^ 24 = Q * 2 ^ t + 2 ^ t := by
    rw [e3, ← Nat.mul_assoc, hQ]; ring
  have hDS : D < 2 ^ t := by omega
  have hxe : T * 2 ^ 24 - D = (2 ^ t - D) + 2 ^ t * Q := by
    rw [hTe]; rw [Nat.mul_comm (2 ^ t) Q]; omega
  have hpos : 0 < 2 ^ t := Nat.two_pow_pos t
  have hdiv : (T * 2 ^ 24 - D) / 2 ^ t = Q := by
    rw [hxe, Nat.add_mul_div_left _ _ hpos, Nat.div_eq_of_lt (by omega)]; simp
  have hmod : (T * 2 ^ 24 - D) % 2 ^ t = 2 ^ t - D := by
    rw [hxe, Nat.add_mul_mod_self_left, Nat.mod_eq_of_lt (by omega)]
  rw [hdiv, hmod] at hcases
  rcases hcases with ⟨_, hc⟩ | ⟨hc, _⟩
  · omega
  · rw [hc, hTe]; ring

/-- Counts of the form `1000 k + 1` and `1000 k + 2` below 17001 at the label 99.9,
where the product comes closest to the next integer from below. -/
theorem startLen_p999_near : ∀ k < 17, ∀ j < 2,
    startLen .p999 (1000 * k + 1 + j) = (1000 * k + 1 + j) * 999 / 1000 := by
  decide

theorem startLen_exact_multiple (p : Percentile) {A d k : Nat}
    (hm : p.den * p.mantissa = A * 2 ^ 24 - d) (hd : 2 * d < A) (hA : A = p.num)
    (hk : p.den * k ≤ 17000) (hden : 10 ≤ p.den) (hnum : p.num ≤ 19) :
    startLen p (p.den * k) = p.den * k * p.num / p.den := by
  have hn : p.den * k < 2 ^ 24 := by norm_num; omega
  rw [startLen_small p hn]
  have hx : p.den * k * p.mantissa = (A * k) * 2 ^ 24 - d * k := by
    rw [Nat.mul_comm p.den k, Nat.mul_assoc, hm, Nat.mul_sub, Nat.mul_comm k d]
    congr 1; ring
  have hk1 : k ≤ 1700 := by
    have := Nat.mul_le_mul_right k hden
    omega
  have hAk : A * k ≤ 19 * 1700 := by
    rw [hA]; exact Nat.mul_le_mul hnum hk1
  rw [hx]
  rcases Nat.eq_zero_or_pos k with hk0 | hkpos
  · subst hk0; simp [roundBits_of_lt]
  have h2 : 2 * (d * k) < A * k := by
    have := Nat.mul_lt_mul_of_pos_right hd hkpos
    linarith
  rw [roundBits_up h2 (by norm_num; omega)]
  rw [Nat.mul_div_cancel _ (Nat.two_pow_pos 24), hA]
  have hdpos : 0 < p.den := by omega
  rw [Nat.mul_comm p.den k, Nat.mul_assoc, Nat.mul_comm p.den p.num, ← Nat.mul_assoc,
    Nat.mul_div_cancel _ hdpos, Nat.mul_comm]

/-- Up to 17000 samples every cut-off index is the exact floor. -/
theorem startLen_eq_floor (p : Percentile) {n : Nat} (hn : n ≤ 17000) :
    startLen p n = n * p.num / p.den := by
  have hn24 : n < 2 ^ 24 := by norm_num; omega
  cases p
  case p50 =>
    have hm : Percentile.mantissa .p50 = 8388608 := by decide
    apply startLen_sandwich _ hn24 <;> simp only [hm, Percentile.num, Percentile.den] <;>
      norm_num <;> omega
  case p60 =>
    have hm : Percentile.mantissa .p60 = 10066330 := by decide
    apply startLen_sandwich _ hn24 <;> simp only [hm, Percentile.num, Percentile.den] <;>
      norm_num <;> omega
  case p80 =>
    have hm : Percentile.mantissa .p80 = 13421773 := by decide
    apply startLen_sandwich _ hn24 <;> simp only [hm, Percentile.num, Percentile.den] <;>
      norm_num <;> omega
  case p99 =>
    have hm : Percentile.mantissa .p99 = 16609444 := by decide
    apply startLen_sandwich _ hn24 <;> simp only [hm, Percentile.num, Percentile.den] <;>
      norm_num <;> omega
  case p70 =>
    have hm : Percentile.mantissa .p70 = 11744051 := by decide
    by_cases hmod : n % 10 = 0
    · obtain ⟨k, rfl⟩ : ∃ k, n = Percentile.den .p70 * k := ⟨n / 10, by
        simp only [Percentile.den]; omega⟩
      exact startLen_exact_multiple .p70 (A := 7) (d := 2) (by decide) (by norm_num) rfl hn
        (by decide) (by decide)
    · have hr : n % 10 < 10 := Nat.mod_lt _ (by norm_num)
      have hdm : 10 * (n / 10) + n % 10 = n := Nat.div_add_mod n 10
      apply startLen_sandwich _ hn24 <;> simp only [hm, Percentile.num, Percentile.den] <;>
        norm_num <;> generalize n % 10 = r at hmod hr hdm <;> interval_cases r <;> omega
  case p90 =>
    have hm : Percentile.mantissa .p90 = 15099494 := by decide
    by_cases hmod : n % 10 = 0
    · obtain ⟨k, rfl⟩ : ∃ k, n = Percentile.den .p90 * k := ⟨n / 10, by
        simp only [Percentile.den]; omega⟩
      exact startLen_exact_multiple .p90 (A := 9) (d := 4) (by decide) (by norm_num) rfl hn
        (by decide) (by decide)
    · have hr : n % 10 < 10 := Nat.mod_lt _ (by norm_num)
      have hdm : 10 * (n / 10) + n % 10 = n := Nat.div_add_mod n 10
      apply startLen_sandwich _ hn24 <;> simp only [hm, Percentile.num, Percentile.den] <;>
        norm_num <;> generalize n % 10 = r at hmod hr hdm <;> interval_cases r <;> omega
  case p95 =>
    have hm : Percentile.mantissa .p95 = 15938355 := by decide
    by_cases hmod : n % 20 = 0
    · obtain ⟨k, rfl⟩ : ∃ k, n = Percentile.den .p95 * k := ⟨n / 20, by
        simp only [Percentile.den]; omega⟩
      exact startLen_exact_multiple .p95 (A := 19) (d := 4) (by decide) (by norm_num) rfl hn
        (by decide) (by decide)
    · have hr : n % 20 < 20 := Nat.mod_lt _ (by norm_num)
      have hdm : 20 * (n / 20) + n % 20 = n := Nat.div_add_mod n 20
      apply startLen_sandwich _ hn24 <;> simp only [hm, Percentile.num, Percentile.den] <;>
        norm_num <;> generalize n % 20 = r at hmod hr hdm <;> interval_cases r <;> omega
  case p999 =>
    have hm : Percentile.mantissa .p999 = 16760439 := by decide
    by_cases hmod : n % 1000 = 1 ∨ n % 1000 = 2
    · have key := startLen_p999_near (n / 1000) (by omega) (n % 1000 - 1) (by omega)
      have e : 1000 * (n / 1000) + 1 + (n % 1000 - 1) = n := by omega
      rw [e] at key
      exact key
    · rcases Nat.eq_zero_or_pos (n % 1000) with h0 | hpos
      · have hb : n * 999 / 1000 = 999 * (n / 1000) := by omega
        apply startLen_sandwich _ hn24 <;> simp only [hm, Percentile.num, Percentile.den] <;>
          norm_num <;> omega
      · have hb : n * 999 / 1000 = 999 * (n / 1000) + (n % 1000 - 1) :=
          Nat.div_eq_of_lt_le (by omega) (by omega)
        apply startLen_sandwich _ hn24 <;> simp only [hm, Percentile.num, Percentile.den] <;>
          norm_num <;> omega

theorem startLen_p999_17001 : startLen .p999 17001 = 16984 ∧ 17001 * 999 / 1000 = 16983 := by
  decide

/-! ## Rounding to `float64` -/

theorem nearestEven_four_mono {t u : Nat} (h : t ≤ u) : nearestEven t 4 * 4 ≤ nearestEven u 4 * 4 := by
  unfold nearestEven
  simp only
  split_ifs <;> omega

theorem nearestEven_four_le {t : Nat} (h : t < 2 ^ 55) : nearestEven t 4 * 4 ≤ 2 ^ 55 := by
  unfold nearestEven
  simp only
  norm_num at h ⊢
  split_ifs <;> omega

theorem nearestEven_four_near {t m : Nat} (h1 : (2 * m - 1) * 2 < t) (h2 : t < (2 * m + 1) * 2)
    (hm : 1 ≤ m) : nearestEven t 4 * 4 = m * 4 := by
  unfold nearestEven
  simp only
  split_ifs <;> omega

theorem sticky_mono {A1 b1 A2 b2 : Nat} (hb1 : 0 < b1) (hb2 : 0 < b2)
    (hA : A1 * b2 ≤ A2 * b1) :
    2 * (A1 / b1) + (if A1 % b1 = 0 then 0 else 1) ≤
      2 * (A2 / b2) + (if A2 % b2 = 0 then 0 else 1) := by
  have hdiv : A1 / b1 ≤ A2 / b2 := by
    rw [Nat.le_div_iff_mul_le hb2]
    have h1 : A1 / b1 * b1 ≤ A1 := Nat.div_mul_le_self A1 b1
    have h2 : A1 / b1 * b2 * b1 ≤ A2 * b1 := by
      calc A1 / b1 * b2 * b1 = A1 / b1 * b1 * b2 := by ring
        _ ≤ A1 * b2 := Nat.mul_le_mul_right _ h1
        _ ≤ A2 * b1 := hA
    exact Nat.le_of_mul_le_mul_right h2 hb1
  rcases Nat.lt_or_ge (A1 / b1) (A2 / b2) with hlt | hge
  · split_ifs <;> omega
  · have heq : A1 / b1 = A2 / b2 := le_antisymm hdiv hge
    by_cases h1 : A1 % b1 = 0
    · simp only [h1, if_true]
      split_ifs <;> omega
    · have h2 : A2 % b2 ≠ 0 := by
        intro h2
        have e1 := Nat.div_add_mod A1 b1
        have e2 := Nat.div_add_mod A2 b2
        rw [h2, Nat.add_zero] at e2
        have hpos : 0 < A1 % b1 := Nat.pos_of_ne_zero h1
        have : A2 * b1 < A1 * b2 := by
          calc A2 * b1 = b2 * (A2 / b2) * b1 := by rw [e2]
            _ = (b1 * (A1 / b1)) * b2 := by rw [heq]; ring
            _ < (b1 * (A1 / b1) + A1 % b1) * b2 :=
                Nat.mul_lt_mul_of_pos_right (by omega) hb2
            _ = A1 * b2 := by rw [e1]
        omega
      simp only [h1, h2, if_false]
      omega

/-- The scaled value with its sticky bit is monotone in the rational it stands for. -/
theorem scaleSticky_mono {a1 b1 a2 b2 : Nat} (hb1 : 0 < b1) (hb2 : 0 < b2)
    (h : a1 * b2 ≤ a2 * b1) : scaleSticky a1 b1 ≤ scaleSticky a2 b2 := by
  unfold scaleSticky
  generalize 2 ^ 1075 = K
  apply sticky_mono hb1 hb2
  calc a1 * K * b2 = a1 * b2 * K := by ring
    _ ≤ a2 * b1 * K := Nat.mul_le_mul_right _ h
    _ = a2 * K * b1 := by ring

theorem roundBits_ge_of_ge {x : Nat} (h : 2 ^ 55 ≤ x) : 2 ^ 55 ≤ roundBits 53 x := by
  have hfix : roundBits 53 (1 * 2 ^ 55) = 1 * 2 ^ 55 := roundBits_fixed (by norm_num)
  have := roundBits_mono (p := 53) (by norm_num) h
  simp only [one_mul] at hfix
  rw [hfix] at this
  exact this

/-- Rounding to `float64` is monotone. -/
theorem roundF64_mono {a1 b1 a2 b2 : Nat} (hb1 : 0 < b1) (hb2 : 0 < b2)
    (h : a1 * b2 ≤ a2 * b1) : roundF64 a1 b1 ≤ roundF64 a2 b2 := by
  have ht := scaleSticky_mono hb1 hb2 h
  unfold roundF64
  simp only
  generalize scaleSticky a1 b1 = t at ht
  generalize scaleSticky a2 b2 = u at ht
  by_cases hu : u < 2 ^ 55
  · have htl : t < 2 ^ 55 := lt_of_le_of_lt ht hu
    rw [if_pos hu, if_pos htl]
    exact nearestEven_four_mono ht
  · rw [if_neg hu]
    by_cases htl : t < 2 ^ 55
    · rw [if_pos htl]
      exact le_trans (nearestEven_four_le htl) (roundBits_ge_of_ge (Nat.le_of_not_lt hu))
    · rw [if_neg htl]
      exact roundBits_mono (by norm_num) ht

theorem cross_of_eq {q : ℚ} {a b : Nat} (hb : 0 < b) (h : q = (a : ℚ) / (b : ℚ)) :
    q.num.natAbs * b = a * q.den := by
  have hq0 : 0 ≤ q := by rw [h]; positivity
  have hnum : 0 ≤ q.num := Rat.num_nonneg.2 hq0
  have hden : (0 : ℚ) < (q.den : ℚ) := by exact_mod_cast q.den_pos
  have hbq : (0 : ℚ) < (b : ℚ) := by exact_mod_cast hb
  have h1 : (q.num : ℚ) / (q.den : ℚ) = (a : ℚ) / (b : ℚ) := by rw [Rat.num_div_den]; exact h
  rw [div_eq_div_iff (ne_of_gt hden) (ne_of_gt hbq)] at h1
  have h2 : ((q.num.natAbs : Nat) : ℚ) = (q.num : ℚ) := by
    rw [Nat.cast_natAbs, abs_of_nonneg hnum]
  have h3 : ((q.num.natAbs * b : Nat) : ℚ) = ((a * q.den : Nat) : ℚ) := by
    rw [Nat.cast_mul, Nat.cast_mul, h2]
    exact h1
  exact_mod_cast h3

theorem roundF64_num_den {q : ℚ} {a b : Nat} (hb : 0 < b) (h : q = (a : ℚ) / (b : ℚ)) :
    roundF64 q.num.natAbs q.den = roundF64 a b := by
  have hc := cross_of_eq hb h
  exact le_antisymm (roundF64_mono q.den_pos hb (le_of_eq hc))
    (roundF64_mono hb q.den_pos (le_of_eq hc.symm))

/-- Rounding of the quotient of two natural numbers. -/
theorem ofRat_div_nat (a b : Nat) (hb : 0 < b) :
    F64.ofRat ((a : ℚ) / (b : ℚ)) =
      if (2 : ℚ) ^ 1024 ≤ (roundF64 a b : ℚ) / 2 ^ 1076 then F64.inf false
      else F64.val ((roundF64 a b : ℚ) / 2 ^ 1076) := by
  have hq0 : ¬ ((a : ℚ) / (b : ℚ) < 0) := not_lt.2 (by positivity)
  unfold F64.ofRat
  simp only [roundF64_num_den hb rfl, hq0, decide_False, if_false]

theorem ofRat_ne_nan (q : ℚ) : F64.ofRat q ≠ F64.nan := by
  unfold F64.ofRat
  simp only
  split_ifs <;> exact fun h => F64.noConfusion h

/-- Rounding to `float64` preserves the order of non-negative values. -/
theorem ofRat_mono {q1 q2 : ℚ} (h0 : 0 ≤ q1) (h : q1 ≤ q2) :
    F64.le (F64.ofRat q1) (F64.ofRat q2) := by
  have h02 : 0 ≤ q2 := le_trans h0 h
  have hn1 : 0 ≤ q1.num := Rat.num_nonneg.2 h0
  have hn2 : 0 ≤ q2.num := Rat.num_nonneg.2 h02
  have hd1 : (0 : ℚ) < (q1.den : ℚ) := by exact_mod_cast q1.den_pos
  have hd2 : (0 : ℚ) < (q2.den : ℚ) := by exact_mod_cast q2.den_pos
  have hcross : q1.num.natAbs * q2.den ≤ q2.num.natAbs * q1.den := by
    have h1 : (q1.num : ℚ) / (q1.den : ℚ) ≤ (q2.num : ℚ) / (q2.den : ℚ) := by
      rw [Rat.num_div_den, Rat.num_div_den]; exact h
    rw [div_le_div_iff₀ hd1 hd2] at h1
    have e1 : ((q1.num.natAbs : Nat) : ℚ) = (q1.num : ℚ) := by
      rw [Nat.cast_natAbs, abs_of_nonneg hn1]
    have e2 : ((q2.num.natAbs : Nat) : ℚ) = (q2.num : ℚ) := by
      rw [Nat.cast_natAbs, abs_of_nonneg hn2]
    have h3 : ((q1.num.natAbs * q2.den : Nat) : ℚ) ≤ ((q2.num.natAbs * q1.den : Nat) : ℚ) := by
      rw [Nat.cast_mul, Nat.cast_mul, e1, e2]
      exact h1
    exact_mod_cast h3
  have hr := roundF64_mono q1.den_pos q2.den_pos hcross
  have hrq : (roundF64 q1.num.natAbs q1.den : ℚ) / 2 ^ 1076 ≤
      (roundF64 q2.num.natAbs q2.den : ℚ) / 2 ^ 1076 := by
    apply div_le_div_of_nonneg_right _ (by positivity)
    exact_mod_cast hr
  have hq1 : ¬ q1 < 0 := not_lt.2 h0
  have hq2 : ¬ q2 < 0 := not_lt.2 h02
  unfold F64.ofRat
  simp only [hq1, hq2, decide_False, if_false]
  generalize (roundF64 q1.num.natAbs q1.den : ℚ) / 2 ^ 1076 = m1 at hrq
  generalize (roundF64 q2.num.natAbs q2.den : ℚ) / 2 ^ 1076 = m2 at hrq
  by_cases o1 : (2 : ℚ) ^ 1024 ≤ m1
  · have o2 : (2 : ℚ) ^ 1024 ≤ m2 := le_trans o1 hrq
    simp only [o1, o2, if_true, F64.le]
    right; trivial
  · by_cases o2 : (2 : ℚ) ^ 1024 ≤ m2
    · simp only [o1, o2, if_true, if_false, F64.le]
    · simp only [o1, o2, if_false, F64.le]
      exact hrq

theorem scaleSticky_one (z : Nat) : scaleSticky z 1 = z * 2 ^ 1076 := by
  unfold scaleSticky
  rw [show (1076 : Nat) = 1075 + 1 from rfl, Nat.pow_succ]
  generalize 2 ^ 1075 = K
  rw [Nat.mod_one, if_pos rfl, Nat.div_one]
  ring

theorem two_pow_le_two_pow (i j : Nat) (h : i ≤ j) : (2 : Nat) ^ i ≤ 2 ^ j :=
  Nat.pow_le_pow_right (Nat.succ_pos 1) h

/-- Integers up to `2^53` are `float64` values. -/
theorem ofRat_natCast {z : Nat} (hz : z ≤ 2 ^ 53) : F64.ofRat (z : ℚ) = F64.val (z : ℚ) := by
  have h := ofRat_div_nat z 1 (by norm_num)
  simp only [Nat.cast_one, div_one] at h
  have hr : roundF64 z 1 = z * 2 ^ 1076 := by
    unfold roundF64
    simp only [scaleSticky_one]
    rcases Nat.eq_zero_or_pos z with h0 | hpos
    · subst h0
      have h55 : 0 * 2 ^ 1076 < 2 ^ 55 := by rw [Nat.zero_mul]; exact Nat.two_pow_pos 55
      rw [if_pos h55, Nat.zero_mul]
      decide
    · have h55 := two_pow_le_two_pow 55 1076 (by decide)
      have hge : ¬ z * 2 ^ 1076 < 2 ^ 55 := by
        generalize 2 ^ 1076 = K at h55
        generalize 2 ^ 55 = L at h55
        exact Nat.not_lt.2 (le_trans h55 (Nat.le_mul_of_pos_left K hpos))
      rw [if_neg hge]
      rcases Nat.lt_or_ge z (2 ^ 53) with hlt | hge2
      · exact roundBits_fixed hlt
      · have hz2 : z = 2 ^ 53 := le_antisymm hz hge2
        rw [hz2, ← pow_add]
        have := roundBits_fixed (p := 53) (q := 1) (e := 53 + 1076) (by norm_num)
        rw [Nat.one_mul] at this
        exact this
  rw [h, hr]
  have hpos : (2 : ℚ) ^ 1076 ≠ 0 := pow_ne_zero _ (by norm_num)
  have e : ((z * 2 ^ 1076 : Nat) : ℚ) / 2 ^ 1076 = (z : ℚ) := by
    rw [Nat.cast_mul, Nat.cast_pow, Nat.cast_ofNat]
    exact mul_div_cancel_right₀ _ hpos
  rw [e]
  have hlt : ¬ (2 : ℚ) ^ 1024 ≤ (z : ℚ) := by
    have h1 : (z : ℚ) ≤ 2 ^ 53 := by exact_mod_cast hz
    have h2 : (2 : ℚ) ^ 53 < 2 ^ 1024 := by
      apply pow_lt_pow_right₀ (by norm_num) (by norm_num)
    linarith
  rw [if_neg hlt]

/-- The scaled value lies on the same side of an even bound as the rational itself. -/
theorem sticky_bounds {A b lo hi : Nat} (hb : 0 < b) (hlo : lo * b < A) (hhi : A < hi * b) :
    2 * lo < 2 * (A / b) + (if A % b = 0 then 0 else 1) ∧
    2 * (A / b) + (if A % b = 0 then 0 else 1) < 2 * hi := by
  have h1 : lo ≤ A / b := (Nat.le_div_iff_mul_le hb).2 (le_of_lt hlo)
  have h2 : A / b < hi := (Nat.div_lt_iff_lt_mul hb).2 hhi
  constructor
  · rcases Nat.lt_or_ge lo (A / b) with h | h
    · split_ifs <;> omega
    · have heq : A / b = lo := le_antisymm h h1
      have hmod : A % b ≠ 0 := by
        intro h0
        have e := Nat.div_add_mod A b
        rw [h0, heq, Nat.add_zero, Nat.mul_comm] at e
        omega
      simp only [hmod, if_false]
      omega
  · split_ifs <;> omega

/-- A rational closer to a `float64` value `m * 2^s` (in units of `2^-1076`, with `m` of
53 bits, not a power of two) than to its neighbours is rounded to that value. -/
theorem roundF64_eq_of_near {a b m s : Nat} (hb : 0 < b) (hs : 2 ≤ s) (hm1 : 2 ^ 52 < m)
    (hm2 : m < 2 ^ 53) (hlo : (2 * m - 1) * 2 ^ (s - 2) * b < a * 2 ^ 1075)
    (hhi : a * 2 ^ 1075 < (2 * m + 1) * 2 ^ (s - 2) * b) : roundF64 a b = m * 2 ^ s := by
  obtain ⟨h1, h2⟩ := sticky_bounds hb hlo hhi
  have hP : 2 ^ s = 4 * 2 ^ (s - 2) := by
    have : s = (s - 2) + 2 := by omega
    conv_lhs => rw [this, pow_add]
    ring
  unfold roundF64 scaleSticky
  simp only
  generalize 2 * (a * 2 ^ 1075 / b) + (if a * 2 ^ 1075 % b = 0 then 0 else 1) = t at h1 h2
  have hPpos : 1 ≤ 2 ^ (s - 2) := Nat.one_le_two_pow
  generalize hPdef : 2 ^ (s - 2) = P at h1 h2 hP hPpos
  -- t lies strictly between (2m-1)·2P and (2m+1)·2P
  have h1' : (2 * m - 1) * (2 * P) < t := by
    calc (2 * m - 1) * (2 * P) = 2 * ((2 * m - 1) * P) := by ring
      _ < t := h1
  have h2' : t < (2 * m + 1) * (2 * P) := by
    calc t < 2 * ((2 * m + 1) * P) := h2
      _ = (2 * m + 1) * (2 * P) := by ring
  have hmP : m * (4 * P) = (2 * m - 1) * (2 * P) + 2 * P := by
    have : 2 * m = (2 * m - 1) + 1 := by omega
    calc m * (4 * P) = (2 * m) * (2 * P) := by ring
      _ = ((2 * m - 1) + 1) * (2 * P) := by rw [← this]
      _ = (2 * m - 1) * (2 * P) + 2 * P := by ring
  have hmP2 : (2 * m + 1) * (2 * P) = m * (4 * P) + 2 * P := by ring
  rw [hP]
  by_cases ht : t < 2 ^ 55
  · rw [if_pos ht]
    -- then s = 2
    have hP1 : P = 1 := by
      by_contra hne
      have hP2 : 2 ≤ P := by omega
      have : 2 ^ 53 * (2 * 2) ≤ (2 * m - 1) * (2 * P) :=
        Nat.mul_le_mul (by omega) (Nat.mul_le_mul_left _ hP2)
      norm_num at this ht
      omega
    subst hP1
    rw [Nat.mul_one]
    exact nearestEven_four_near (by omega) (by omega) (by omega)
  · rw [if_neg ht]
    -- the binade of t has shift s
    have hlow : 2 ^ (53 + s - 1) ≤ t := by
      have e : 53 + s - 1 = 52 + s := by omega
      rw [e, pow_add, hP]
      have : 2 ^ 52 * (4 * P) ≤ (2 * m - 1) * (2 * P) := by
        calc 2 ^ 52 * (4 * P) = (2 * 2 ^ 52) * (2 * P) := by ring
          _ ≤ (2 * m - 1) * (2 * P) := Nat.mul_le_mul_right _ (by omega)
      omega
    have hhigh : t < 2 ^ (53 + s) := by
      rw [pow_add, hP]
      have : (2 * m + 1) * (2 * P) ≤ 2 ^ 53 * (4 * P) := by
        calc (2 * m + 1) * (2 * P) ≤ (2 * 2 ^ 53) * (2 * P) := Nat.mul_le_mul_right _ (by omega)
          _ = 2 ^ 53 * (4 * P) := by ring
      omega
    have hcases := roundBits_cases (by omega : 1 ≤ s) hlow hhigh
    rw [hP] at hcases
    have hpos : 0 < 4 * P := by omega
    have hdm := Nat.div_add_mod t (4 * P)
    rcases Nat.lt_or_ge t (m * (4 * P)) with hlt | hge
    · -- below the value: the quotient is m - 1 and the remainder exceeds the half
      have hq : t / (4 * P) = m - 1 := by
        apply Nat.div_eq_of_lt_le
        · have : (m - 1) * (4 * P) + 4 * P = m * (4 * P) := by
            have hm : m = (m - 1) + 1 := by omega
            conv_rhs => rw [hm]
            ring
          omega
        · have : (m - 1 + 1) * (4 * P) = m * (4 * P) := by
            have hm : m - 1 + 1 = m := by omega
            rw [hm]
          omega
      have hmul : 4 * P * (m - 1) + 4 * P = m * (4 * P) := by
        have hm : m = (m - 1) + 1 := by omega
        conv_rhs => rw [hm]
        ring
      rw [hq] at hdm hcases
      rcases hcases with ⟨_, hc⟩ | ⟨hc, _⟩
      · omega
      · rw [hc]
        have hm : m - 1 + 1 = m := by omega
        rw [hm]
    · have hq : t / (4 * P) = m := by
        apply Nat.div_eq_of_lt_le
        · exact hge
        · have : (m + 1) * (4 * P) = m * (4 * P) + 4 * P := by ring
          omega
      have hmul : 4 * P * m = m * (4 * P) := Nat.mul_comm _ _
      rw [hq] at hdm hcases
      rcases hcases with ⟨hc, _⟩ | ⟨_, hc⟩
      · exact hc
      · omega

/-- Evaluation of a rounding: a quotient closer to `m / 2^k` (with `m` of 53 bits, not a
power of two) than to the neighbouring `float64` values is rounded to it. -/
theorem ofRat_eq_of_near {a b m k : Nat} (hb : 0 < b) (hk : k ≤ 1074) (hm1 : 2 ^ 52 < m)
    (hm2 : m < 2 ^ 53) (hlo : (2 * m - 1) * b < a * 2 ^ (k + 1))
    (hhi : a * 2 ^ (k + 1) < (2 * m + 1) * b) :
    F64.ofRat ((a : ℚ) / (b : ℚ)) = F64.val ((m : ℚ) / 2 ^ k) := by
  obtain ⟨s, hs⟩ : ∃ s, s + k = 1076 := ⟨1076 - k, by omega⟩
  have hs2 : 2 ≤ s := by omega
  have e75 : (2 : Nat) ^ 1075 = 2 ^ (s - 2) * 2 ^ (k + 1) := by
    have h : 1075 = (s - 2) + (k + 1) := by omega
    exact (congrArg (fun n => 2 ^ n) h).trans (pow_add 2 _ _)
  have hpos : 0 < 2 ^ (s - 2) := Nat.two_pow_pos _
  have hr : roundF64 a b = m * 2 ^ s := by
    apply roundF64_eq_of_near hb hs2 hm1 hm2
    · rw [e75]
      calc (2 * m - 1) * 2 ^ (s - 2) * b = 2 ^ (s - 2) * ((2 * m - 1) * b) := by ring
        _ < 2 ^ (s - 2) * (a * 2 ^ (k + 1)) := Nat.mul_lt_mul_of_pos_left hlo hpos
        _ = a * (2 ^ (s - 2) * 2 ^ (k + 1)) := by ring
    · rw [e75]
      calc a * (2 ^ (s - 2) * 2 ^ (k + 1)) = 2 ^ (s - 2) * (a * 2 ^ (k + 1)) := by ring
        _ < 2 ^ (s - 2) * ((2 * m + 1) * b) := Nat.mul_lt_mul_of_pos_left hhi hpos
        _ = (2 * m + 1) * 2 ^ (s - 2) * b := by ring
  have e76 : (2 : ℚ) ^ 1076 = 2 ^ k * 2 ^ s := by
    have h : 1076 = k + s := by omega
    exact (congrArg (fun n => (2 : ℚ) ^ n) h).trans (pow_add 2 _ _)
  have hval : ((m * 2 ^ s : Nat) : ℚ) / 2 ^ 1076 = (m : ℚ) / 2 ^ k := by
    rw [e76, Nat.cast_mul, Nat.cast_pow, Nat.cast_ofNat]
    have h2s : (2 : ℚ) ^ s ≠ 0 := pow_ne_zero _ (by norm_num)
    exact mul_div_mul_right _ _ h2s
  rw [ofRat_div_nat a b hb, hr, hval]
  have hlt : ¬ (2 : ℚ) ^ 1024 ≤ (m : ℚ) / 2 ^ k := by
    have h1 : (m : ℚ) / 2 ^ k ≤ (m : ℚ) := by
      apply div_le_self (by positivity)
      exact one_le_pow₀ (by norm_num)
    have h2 : (m : ℚ) < 2 ^ 53 := by exact_mod_cast hm2
    have h3 : (2 : ℚ) ^ 53 < 2 ^ 1024 := pow_lt_pow_right₀ (by norm_num) (by norm_num)
    linarith
  rw [if_neg hlt]

/-- The `float64` nearest to 4/3. -/
theorem ofRat_four_thirds :
    F64.ofRat ((4 : Nat) / (3 : Nat)) = F64.val (6004799503160661 / 2 ^ 52) := by
  have := ofRat_eq_of_near (a := 4) (b := 3) (m := 6004799503160661) (k := 52)
    (by norm_num) (by norm_num) (by norm_num) (by norm_num) (by norm_num) (by norm_num)
  simpa using this

/-! ## Sums and averages -/

theorem wrap64_of_range {z : Int} (h1 : -2 ^ 63 ≤ z) (h2 : z < 2 ^ 63) : wrap64 z = z := by
  unfold wrap64
  norm_num at h1 h2 ⊢
  omega

theorem wrap64_add_wrap64 (a v : Int) : wrap64 (wrap64 a + v) = wrap64 (a + v) := by
  unfold wrap64
  norm_num
  omega

theorem foldl_wrap64 (l : List Int) (a : Int) :
    l.foldl (fun sum v => wrap64 (sum + v)) (wrap64 a) = wrap64 (a + l.sum) := by
  induction l generalizing a with
  | nil => simp
  | cons v l ih =>
    simp only [List.foldl_cons, List.sum_cons]
    rw [wrap64_add_wrap64, ih, add_assoc]

/-- The loop of `getAvg` computes the exact sum modulo `2^64`. -/
theorem sumLoop_eq (l : List Int) : sumLoop l = wrap64 l.sum := by
  have h := foldl_wrap64 l 0
  have h0 : wrap64 0 = 0 := by decide
  rw [h0, zero_add] at h
  exact h

theorem getAvg_nil : getAvg [] = F64.nan := by decide

theorem roundBits_exact {z : Nat} (hz : z ≤ 2 ^ 53) : roundBits 53 z = z := by
  rcases Nat.lt_or_ge z (2 ^ 53) with hlt | hge
  · exact roundBits_of_lt hlt
  · have hz2 : z = 2 ^ 53 := le_antisymm hz hge
    have := roundBits_fixed (p := 53) (q := 1) (e := 53) (by norm_num)
    rw [Nat.one_mul] at this
    rw [hz2]; exact this

/-- Integers from 0 to `2^53` are converted exactly. -/
theorem ofInt_exact {z : Int} (h0 : 0 ≤ z) (hz : z ≤ 2 ^ 53) : F64.ofInt z = F64.val (z : ℚ) := by
  have hnat : z.natAbs ≤ 2 ^ 53 := by omega
  have hcast : ((z.natAbs : Nat) : ℚ) = (z : ℚ) := by
    rw [Nat.cast_natAbs, abs_of_nonneg h0]
  simp only [F64.ofInt, not_lt.2 h0, if_false, roundBits_exact hnat, hcast]

theorem ofInt_length_ne_zero {l : List Int} (h : l ≠ []) :
    ∃ q : ℚ, F64.ofInt (l.length : Int) = F64.val q ∧ q ≠ 0 := by
  have hpos : 1 ≤ l.length := Nat.pos_of_ne_zero fun h0 => h (List.length_eq_zero.1 h0)
  have hr : 1 ≤ roundBits 53 l.length := by
    have := roundBits_mono (p := 53) (by norm_num) hpos
    rwa [roundBits_of_lt (by norm_num : 1 < 2 ^ 53)] at this
  refine ⟨(roundBits 53 l.length : ℚ), ?_, ?_⟩
  · simp [F64.ofInt]
  · have : (1 : ℚ) ≤ (roundBits 53 l.length : ℚ) := by exact_mod_cast hr
    linarith

/-- The average of a non-empty slice is never NaN. -/
theorem getAvg_ne_nan {l : List Int} (h : l ≠ []) : getAvg l ≠ F64.nan := by
  obtain ⟨q, hq, hq0⟩ := ofInt_length_ne_zero h
  unfold getAvg
  rw [hq]
  cases hs : F64.ofInt (sumLoop l) with
  | val a =>
    simp only [F64.div, hq0, if_false]
    exact ofRat_ne_nan _
  | inf s => simp [F64.ofInt] at hs
  | nan => simp [F64.ofInt] at hs

theorem length_sortStable (l : List Int) : (sortStable l).length = l.length :=
  List.length_insertionSort _ l

theorem perm_sortStable (l : List Int) : (sortStable l).Perm l :=
  List.perm_insertionSort _ l

theorem sorted_sortStable (l : List Int) : (sortStable l).Sorted (· ≤ ·) :=
  List.sorted_insertionSort _ l

theorem sortStable_perm {l1 l2 : List Int} (h : l1.Perm l2) : sortStable l1 = sortStable l2 :=
  List.eq_of_perm_of_sorted ((perm_sortStable l1).trans (h.trans (perm_sortStable l2).symm))
    (sorted_sortStable l1) (sorted_sortStable l2)

theorem bucketAvg_eq (p : Percentile) {l : List Int} (h : l ≠ []) :
    bucketAvg p l = some (getAvg ((sortStable l).drop (startLen p l.length))) ∧
    (sortStable l).drop (startLen p l.length) ≠ [] := by
  have hpos : 1 ≤ l.length := Nat.pos_of_ne_zero fun h0 => h (List.length_eq_zero.1 h0)
  have hlt := startLen_lt p hpos
  have hle : startLen p l.length ≤ (sortStable l).length := by
    rw [length_sortStable]; exact le_of_lt hlt
  refine ⟨by simp [bucketAvg, sliceFrom, hle], ?_⟩
  intro h0
  have := congrArg List.length h0
  simp [length_sortStable] at this
  omega
theorem label_eq (p : Percentile) : p.label / 100 = (p.num : ℚ) / (p.den : ℚ) := by
  cases p <;> simp [Percentile.label, Percentile.num, Percentile.den] <;> norm_num

theorem cutoffSpec_eq (p : Percentile) (n : Nat) : cutoffSpec p n = ((n * p.num / p.den : Nat) : Int) := by
  unfold cutoffSpec
  rw [label_eq, ← mul_div_assoc]
  have := Rat.floor_intCast_div_natCast ((n * p.num : Nat) : Int) p.den
  push_cast at this ⊢
  rw [this]

theorem mean_cons_le {a : Int} {l : List Int} (hl : l ≠ []) (ha : ∀ x ∈ l, a ≤ x) :
    mean (a :: l) ≤ mean l := by
  have hlen : 0 < l.length := List.length_pos.2 hl
  have hsum : (l.length : Int) * a ≤ l.sum := by
    have := List.card_nsmul_le_sum l a ha
    simpa [nsmul_eq_mul] using this
  have hlenQ : (0 : ℚ) < (l.length : ℚ) := by exact_mod_cast hlen
  have hsumQ : (l.length : ℚ) * (a : ℚ) ≤ (l.sum : ℚ) := by exact_mod_cast hsum
  unfold mean
  simp only [List.sum_cons, List.length_cons]
  rw [Int.cast_add, Nat.cast_add, Nat.cast_one, div_le_div_iff₀ (by linarith) hlenQ]
  nlinarith

theorem mean_le_mean_drop : ∀ (l : List Int), l.Sorted (· ≤ ·) → ∀ k, k < l.length →
    mean l ≤ mean (l.drop k)
  | _, _, 0, _ => by simp
  | [], _, k + 1, hk => by simp at hk
  | a :: t, hs, k + 1, hk => by
    have hk2 : k < t.length := by simpa using hk
    have ht : t ≠ [] := by
      intro h0; subst h0; simp at hk2
    have hs2 := List.sorted_cons.1 hs
    calc mean (a :: t) ≤ mean t := mean_cons_le ht hs2.1
      _ ≤ mean (t.drop k) := mean_le_mean_drop t hs2.2 k hk2

theorem mean_drop_mono {l : List Int} (hs : l.Sorted (· ≤ ·)) {i j : Nat} (hij : i ≤ j)
    (hj : j < l.length) : mean (l.drop i) ≤ mean (l.drop j) := by
  have h := mean_le_mean_drop (l.drop i) (List.Pairwise.sublist (List.drop_sublist i l) hs)
    (j - i) (by simp; omega)
  rw [List.drop_drop] at h
  have e : i + (j - i) = j := by omega
  have e2 : (j - i) + i = j := by omega
  simpa [e, e2] using h

theorem mean_le_of_le {l : List Int} (hl : l ≠ []) {m : Int} (hm : ∀ x ∈ l, x ≤ m) :
    mean l ≤ (m : ℚ) := by
  have hlen : 0 < l.length := List.length_pos.2 hl
  have hlenQ : (0 : ℚ) < (l.length : ℚ) := by exact_mod_cast hlen
  have hsum : l.sum ≤ (l.length : Int) * m := by
    have := List.sum_le_card_nsmul l m hm
    simpa [nsmul_eq_mul] using this
  have hsumQ : (l.sum : ℚ) ≤ (l.length : ℚ) * (m : ℚ) := by exact_mod_cast hsum
  unfold mean
  rw [div_le_iff₀ hlenQ]
  linarith

theorem sum_drop_bounds : ∀ (l : List Int), (∀ x ∈ l, 0 ≤ x) → ∀ k,
    0 ≤ (l.drop k).sum ∧ (l.drop k).sum ≤ l.sum
  | l, h, 0 => by simpa using List.sum_nonneg h
  | [], _, k + 1 => by simp
  | a :: t, h, k + 1 => by
    have ha : 0 ≤ a := h a (List.mem_cons_self a t)
    have ht : ∀ x ∈ t, 0 ≤ x := fun x hx => h x (List.mem_cons_of_mem a hx)
    have := sum_drop_bounds t ht k
    simp only [List.drop_succ_cons, List.sum_cons]
    omega

/-- While sum and count are at most `2^53`, `getAvg` is the arithmetic mean rounded once. -/
theorem getAvg_eq_ofRat {l : List Int} (hl : l ≠ []) (h1 : 0 ≤ l.sum) (h2 : l.sum ≤ 2 ^ 53)
    (h3 : l.length ≤ 2 ^ 53) : getAvg l = F64.ofRat (mean l) := by
  have hw : wrap64 l.sum = l.sum := by
    apply wrap64_of_range
    · have : (-2 : Int) ^ 63 ≤ 0 := by norm_num
      omega
    · have : (2 : Int) ^ 53 < 2 ^ 63 := by norm_num
      omega
  have hlen : ((l.length : Int) : ℚ) ≠ 0 := by
    have : l.length ≠ 0 := fun h0 => hl (List.length_eq_zero.1 h0)
    exact_mod_cast this
  have hl3 : (l.length : Int) ≤ 2 ^ 53 := by exact_mod_cast h3
  unfold getAvg
  rw [sumLoop_eq, hw, ofInt_exact h1 h2, ofInt_exact (Int.natCast_nonneg _) hl3]
  simp only [F64.div, hlen, if_false]
  rfl

theorem tail_avg_eq_ofRat {l : List Int} (h0 : ∀ x ∈ l, 0 ≤ x) (hs : l.sum ≤ 2 ^ 53)
    (hlen : l.length ≤ 2 ^ 53) (k : Nat) (hk : (sortStable l).drop k ≠ []) :
    getAvg ((sortStable l).drop k) = F64.ofRat (mean ((sortStable l).drop k)) := by
  have hperm := perm_sortStable l
  have h0s : ∀ x ∈ sortStable l, 0 ≤ x := fun x hx => h0 x (hperm.mem_iff.1 hx)
  have hb := sum_drop_bounds (sortStable l) h0s k
  have hsum : (sortStable l).sum = l.sum := hperm.sum_eq
  apply getAvg_eq_ofRat hk hb.1 (by omega)
  rw [List.length_drop, length_sortStable]
  omega

theorem mantissa_mono {p q : Percentile} (h : p.label ≤ q.label) : p.mantissa ≤ q.mantissa := by
  cases p <;> cases q <;>
    first
    | decide
    | (exfalso; revert h; norm_num [Percentile.label])

/-- The cut-off index does not decrease along the labels. -/
theorem startLen_mono {p q : Percentile} (h : p.label ≤ q.label) (n : Nat) :
    startLen p n ≤ startLen q n := by
  unfold startLen float32Mul
  exact Nat.div_le_div_right
    (roundBits_mono (by norm_num) (Nat.mul_le_mul_left _ (mantissa_mono h)))

theorem overallAvg_perm {l1 l2 : List Int} (h : l1.Perm l2) : overallAvg l1 = overallAvg l2 := by
  unfold overallAvg; rw [sortStable_perm h]

theorem bucketAvg_perm (p : Percentile) {l1 l2 : List Int} (h : l1.Perm l2) :
    bucketAvg p l1 = bucketAvg p l2 := by
  unfold bucketAvg; rw [sortStable_perm h, h.length_eq]

theorem bucketLines_perm {l1 l2 : List Int} (h : l1.Perm l2) (ps : List Percentile) :
    bucketLines l1 ps = bucketLines l2 ps := by
  induction ps with
  | nil => rfl
  | cons p ps ih => simp only [bucketLines, bucketAvg_perm p h, ih]

theorem report_perm {l1 l2 : List Int} (h : l1.Perm l2) (requestCount : Int) :
    report requestCount l1 = report requestCount l2 := by
  unfold report; rw [bucketLines_perm h, overallAvg_perm h]

theorem mean_perm {l1 l2 : List Int} (h : l1.Perm l2) : mean l1 = mean l2 := by
  unfold mean; rw [h.sum_eq, h.length_eq]

theorem overallAvg_eq_ofRat {l : List Int} (hne : l ≠ []) (h0 : ∀ x ∈ l, 0 ≤ x)
    (hs : l.sum ≤ 2 ^ 53) (hlen : l.length ≤ 2 ^ 53) : overallAvg l = F64.ofRat (mean l) := by
  have hne2 : (sortStable l).drop 0 ≠ [] := by
    intro h
    have := congrArg List.length h
    simp [length_sortStable] at this
    exact hne this
  have := tail_avg_eq_ofRat h0 hs hlen 0 hne2
  simp only [List.drop_zero] at this
  rw [overallAvg, this, mean_perm (perm_sortStable l)]

theorem bucketAvg_eq_ofRat (p : Percentile) {l : List Int} (hne : l ≠ []) (h0 : ∀ x ∈ l, 0 ≤ x)
    (hs : l.sum ≤ 2 ^ 53) (hlen : l.length ≤ 2 ^ 53) :
    bucketAvg p l = some (F64.ofRat (mean ((sortStable l).drop (startLen p l.length)))) := by
  obtain ⟨h1, h2⟩ := bucketAvg_eq p hne
  rw [h1, tail_avg_eq_ofRat h0 hs hlen _ h2]

theorem mean_nonneg {l : List Int} (h0 : ∀ x ∈ l, 0 ≤ x) : 0 ≤ mean l := by
  unfold mean
  apply div_nonneg
  · exact_mod_cast List.sum_nonneg h0
  · positivity

/-- An integer mean of at most `2^53` is reported exactly. -/
theorem ofRat_mean_int {l : List Int} (h0 : ∀ x ∈ l, 0 ≤ x) {z : Int} (hz : mean l = z)
    (hz2 : z ≤ 2 ^ 53) : F64.ofRat (mean l) = F64.val (z : ℚ) := by
  have hz0 : 0 ≤ z := by
    have := mean_nonneg h0
    rw [hz] at this
    exact_mod_cast this
  have hnat : z.natAbs ≤ 2 ^ 53 := by omega
  have hcast : ((z.natAbs : Nat) : ℚ) = (z : ℚ) := by
    rw [Nat.cast_natAbs, abs_of_nonneg hz0]
  rw [hz, ← hcast]
  exact ofRat_natCast hnat
theorem sortStable_replicate (n : Nat) (x : Int) :
    sortStable (List.replicate n x) = List.replicate n x := by
  apply List.Sorted.insertionSort_eq
  rw [List.Sorted, List.pairwise_replicate]
  right; exact le_rfl

theorem mean_replicate {n : Nat} (hn : n ≠ 0) (x : Int) : mean (List.replicate n x) = x := by
  have hq : (n : ℚ) ≠ 0 := by exact_mod_cast hn
  simp only [mean, List.sum_replicate, List.length_replicate, nsmul_eq_mul]
  push_cast
  field_simp

theorem mean_le_sum {l : List Int} (hl : l ≠ []) (h0 : ∀ x ∈ l, 0 ≤ x) : mean l ≤ (l.sum : ℚ) := by
  have hlen : 1 ≤ l.length := Nat.pos_of_ne_zero fun h => hl (List.length_eq_zero.1 h)
  have hlenQ : (1 : ℚ) ≤ (l.length : ℚ) := by exact_mod_cast hlen
  have hs : (0 : ℚ) ≤ (l.sum : ℚ) := by exact_mod_cast List.sum_nonneg h0
  unfold mean
  exact div_le_self hs hlenQ

/-- The largest recordable latency but one, in milliseconds. -/
theorem getAvg_replicate_1003 :
    getAvg (List.replicate 1003 9223372036853) = F64.val (9223372036853 + 1 / 512) := by
  have hsum : sumLoop (List.replicate 1003 9223372036853) = 9251042152963559 := by
    rw [sumLoop_eq, List.sum_replicate]
    unfold wrap64
    norm_num
  have hr1 : roundBits 53 9251042152963559 = 9251042152963560 := by decide
  have hr2 : roundBits 53 1003 = 1003 := by decide
  have h1 : F64.ofInt 9251042152963559 = F64.val ((9251042152963560 : Nat) : ℚ) := by
    simp only [F64.ofInt]
    norm_num [hr1]
  have h2 : F64.ofInt ((1003 : Nat) : Int) = F64.val ((1003 : Nat) : ℚ) := by
    simp only [F64.ofInt]
    norm_num [hr2]
  have hne : ((1003 : Nat) : ℚ) ≠ 0 := by norm_num
  unfold getAvg
  rw [hsum, List.length_replicate, h1, h2]
  simp only [F64.div, hne, if_false]
  rw [ofRat_eq_of_near (a := 9251042152963560) (b := 1003) (m := 4722366482868737) (k := 9)
    (by norm_num) (by norm_num) (by norm_num) (by norm_num) (by norm_num) (by norm_num)]
  norm_num

theorem replicate_ne_nil {n : Nat} (hn : n ≠ 0) (x : Int) : List.replicate n x ≠ [] := by
  intro h
  have := congrArg List.length h
  rw [List.length_replicate, List.length_nil] at this
  exact hn this

theorem getAvg_replicate_802 :
    getAvg (List.replicate 802 9223372036853) = F64.val 9223372036853 := by
  have hne : List.replicate 802 (9223372036853 : Int) ≠ [] := replicate_ne_nil (by decide) _
  have hsum : (List.replicate 802 (9223372036853 : Int)).sum = 7397144373556106 := by
    rw [List.sum_replicate]; norm_num
  have hlen : (List.replicate 802 (9223372036853 : Int)).length ≤ 2 ^ 53 := by
    rw [List.length_replicate]; norm_num
  rw [getAvg_eq_ofRat hne (by rw [hsum]; norm_num) (by rw [hsum]; norm_num) hlen]
  have h0 : ∀ y ∈ List.replicate 802 (9223372036853 : Int), 0 ≤ y := by
    intro y hy
    rw [List.eq_of_mem_replicate hy]
    norm_num
  rw [ofRat_mean_int h0 (z := 9223372036853) (mean_replicate (by decide) _) (by norm_num),
    Int.cast_ofNat]

theorem bucketLines_some {l : List Int} (hne : l ≠ []) (ps : List Percentile) :
    ∃ bs, bucketLines l ps = some bs := by
  induction ps with
  | nil => exact ⟨[], rfl⟩
  | cons p ps ih =>
    obtain ⟨bs, hbs⟩ := ih
    exact ⟨(p, F64.round (F64.div (F64.mul
      (getAvg ((sortStable l).drop (startLen p l.length))) (.val 100)) (.val 100))) :: bs,
      by simp only [bucketLines, (bucketAvg_eq p hne).1, hbs]⟩

/-! ## Header parsing -/

theorem split_length_two_iff (v : String) :
    (split v ": ").length = 2 ↔ ∃ name value, split v ": " = [name, value] := by
  constructor
  · intro h
    match hs : split v ": ", h with
    | [a, b], _ => exact ⟨a, b, rfl⟩
  · rintro ⟨a, b, h⟩; rw [h]; rfl

theorem parseHeadersFrom_cons_ok {h : HeaderMap} {v name value : String} {rest : List String}
    (hs : split v ": " = [name, value]) :
    parseHeadersFrom h (v :: rest) = parseHeadersFrom (h.set name value) rest := by
  simp only [parseHeadersFrom, hs]

theorem parseHeadersFrom_cons_error {h : HeaderMap} {v : String} {rest : List String}
    (hs : (split v ": ").length ≠ 2) :
    parseHeadersFrom h (v :: rest) = .error ("Can't convert " ++ v ++ " to header") := by
  unfold parseHeadersFrom
  split
  · rename_i name value heq
    rw [heq] at hs
    exact absurd rfl hs
  · rfl

theorem parseHeadersFrom_ok_iff (hs : List String) : ∀ (h : HeaderMap),
    (∃ m, parseHeadersFrom h hs = .ok m) ↔ ∀ v ∈ hs, (split v ": ").length = 2 := by
  induction hs with
  | nil => intro h; simp [parseHeadersFrom]
  | cons v rest ih =>
    intro h
    by_cases hv : (split v ": ").length = 2
    · obtain ⟨name, value, hsplit⟩ := (split_length_two_iff v).1 hv
      rw [parseHeadersFrom_cons_ok hsplit, ih]
      simp [hv]
    · rw [parseHeadersFrom_cons_error hv]
      simp [hv]

theorem get_set (h : HeaderMap) (k v name : String) :
    (h.set k v).get name = if k = name then some v else h.get name := by
  unfold HeaderMap.set HeaderMap.get
  by_cases hk : k = name
  · subst hk; simp
  · have hne : (k == name) = false := by simpa using hk
    simp only [List.find?_cons, hne, hk, if_false]
    congr 1
    induction h with
    | nil => rfl
    | cons e t ih =>
      by_cases he : e.1 = k
      · have h1 : (e.1 != k) = false := by simp [he]
        have h2 : (e.1 == name) = false := by
          simp only [beq_eq_false_iff_ne, ne_eq]; rw [he]; exact hk
        simp only [List.filter_cons, h1, List.find?_cons, h2]
        exact ih
      · have h1 : (e.1 != k) = true := by simp [he]
        simp only [List.filter_cons, h1, if_true, List.find?_cons]
        cases (e.1 == name) <;> simp [ih]

theorem headerSpec_cons {v n value : String} (hs : split v ": " = [n, value])
    (rest : List String) (name : String) :
    headerSpec (v :: rest) name =
      (headerSpec rest name).or (if n = name then some value else none) := by
  unfold headerSpec
  rw [List.reverse_cons, List.findSome?_append]
  simp only [List.findSome?_cons, List.findSome?_nil, hs]
  cases rest.reverse.findSome? _ with
  | some w => simp
  | none => by_cases hn : n = name <;> simp [hn, Option.or]

theorem parseHeadersFrom_get (hs : List String) : ∀ (h m : HeaderMap),
    parseHeadersFrom h hs = .ok m → ∀ name, m.get name = (headerSpec hs name).or (h.get name) := by
  induction hs with
  | nil =>
    intro h m hm name
    simp only [parseHeadersFrom, Except.ok.injEq] at hm
    subst hm
    simp [headerSpec]
  | cons v rest ih =>
    intro h m hm name
    by_cases hv : (split v ": ").length = 2
    · obtain ⟨n, value, hsplit⟩ := (split_length_two_iff v).1 hv
      rw [parseHeadersFrom_cons_ok hsplit] at hm
      rw [ih _ _ hm name, headerSpec_cons hsplit, get_set]
      cases headerSpec rest name with
      | some w => simp
      | none => by_cases hn : n = name <;> simp [hn, Option.or]
    · rw [parseHeadersFrom_cons_error hv] at hm
      exact absurd hm (by simp)

theorem startup_error_of_bad_header (parseRequestURI : String → Bool)
    (parseDuration : String → Option Int) (f : Flags)
    (h : ∃ v ∈ f.headers, (split v ": ").length ≠ 2) :
    ∃ e, startup parseRequestURI parseDuration f = .error e := by
  have hbad : ¬ ∃ m, parseHeaders f.headers = .ok m := by
    intro hok
    obtain ⟨v, hv, hne⟩ := h
    exact hne ((parseHeadersFrom_ok_iff f.headers []).1 hok v hv)
  unfold startup
  split
  · split
    · split
      · split
        · rename_i m hm
          exact absurd ⟨m, hm⟩ hbad
        · exact ⟨_, rfl⟩
      · exact ⟨_, rfl⟩
    · exact ⟨_, rfl⟩
  · exact ⟨_, rfl⟩

/-! ## Interleaved execution -/

theorem run_invariant {N : Nat} {P : Sys → Prop}
    (hstep : ∀ a s s2, P s → step N a s = some s2 → P s2) :
    ∀ sched s s2, P s → run N sched s = some s2 → P s2 := by
  intro sched
  induction sched with
  | nil =>
    intro s s2 hP h
    simp only [run, Option.some.injEq] at h
    exact h ▸ hP
  | cons a rest ih =>
    intro s s2 hP h
    simp only [run] at h
    cases hs : step N a s with
    | none => rw [hs] at h; simp at h
    | some s1 =>
      rw [hs] at h
      exact ih s1 s2 (hstep a s s1 hP hs) h

theorem reachable_invariant {N : Nat} {P : Sys → Prop} (h0 : ∀ expired, P (Sys.init expired))
    (hstep : ∀ a s s2, P s → step N a s = some s2 → P s2) : ∀ s, Reachable N s → P s := by
  rintro s ⟨expired, sched, h⟩
  exact run_invariant hstep sched _ s (h0 expired) h

theorem get?_lt {l : List ExecPc} {i : Nat} {pc : ExecPc} (h : l.get? i = some pc) :
    i < l.length := by
  rw [List.get?_eq_some] at h
  exact h.1

theorem slots_step (N : Nat) (a : Action) (s s2 : Sys) (hP : SlotInv N s)
    (h : step N a s = some s2) : SlotInv N s2 := by
  obtain ⟨h1, h2, h3⟩ := hP
  unfold step at h
  split at h
  · simp at h
  cases a with
  | timer =>
    simp only [Option.some.injEq] at h
    subst h
    exact ⟨h1, h2, h3⟩
  | mainStep =>
    simp only [mainStep] at h
    split at h
    · split at h
      · simp only [Option.some.injEq] at h
        subst h
        exact ⟨h1, h2, h3⟩
      · split at h
        · simp only [Option.some.injEq] at h
          subst h
          exact ⟨h1, h2, h3⟩
        · rename_i hns
          have hf : s.testAledyStarted = false := by simpa using hns
          obtain ⟨_, he, _⟩ := h3 hf
          simp only [Option.some.injEq] at h
          subst h
          refine ⟨Nat.zero_le _, ?_, ?_⟩
          · simp [he]
          · intro hc; simp at hc
    · simp only [Option.some.injEq] at h
      subst h
      exact ⟨h1, h2, h3⟩
    · simp at h
  | dispatch =>
    simp only [dispatchStep] at h
    split at h
    · simp at h
    · rename_i hd
      split at h
      · rename_i hlt
        simp only [Option.some.injEq] at h
        subst h
        refine ⟨hlt, ?_, ?_⟩
        · simp [hd] at h2 ⊢; omega
        · intro hf
          have := (h3 hf).1
          rw [hd] at this
          exact absurd this (by simp)
      · simp at h
    · rename_i hd
      simp only [Option.some.injEq] at h
      subst h
      refine ⟨h1, ?_, ?_⟩
      · simp [hd] at h2 ⊢; omega
      · intro hf
        have := (h3 hf).1
        rw [hd] at this
        exact absurd this (by simp)
  | doReturns i r e =>
    simp only [doReturnsStep] at h
    split at h
    · rename_i hget
      cases r <;>
      · simp only [Option.some.injEq] at h
        subst h
        refine ⟨h1, by simpa using h2, ?_⟩
        intro hf
        have := (h3 hf).2.1
        rw [this] at hget
        simp at hget
    · simp at h
  | exec i =>
    simp only [execStep] at h
    split at h
    all_goals
      first
      | (simp at h; done)
      | skip
    all_goals rename_i hget
    all_goals have hlt := get?_lt hget
    all_goals
      first
      | (split at h
         · simp only [Option.some.injEq] at h
           subst h
           refine ⟨by simp; omega, ?_, ?_⟩
           · simp [List.length_eraseIdx, hlt] at h2 ⊢; omega
           · intro hf
             have := (h3 hf).2.1
             rw [this] at hlt
             simp at hlt
         · simp at h)
      | (simp only [Option.some.injEq] at h
         subst h
         refine ⟨h1, by simpa using h2, ?_⟩
         intro hf
         have := (h3 hf).2.1
         rw [this] at hlt
         simp at hlt)
theorem slotInv_init (N : Nat) (expired : Bool) : SlotInv N (Sys.init expired) :=
  ⟨Nat.zero_le _, by simp [Sys.init], fun _ => ⟨rfl, rfl, rfl⟩⟩

theorem slotInv_of_reachable {N : Nat} {s : Sys} (h : Reachable N s) : SlotInv N s :=
  reachable_invariant (slotInv_init N) (slots_step N) s h

theorem launch_step (N : Nat) (a : Action) (s s2 : Sys) (hP : LaunchInv s)
    (h : step N a s = some s2) : LaunchInv s2 := by
  obtain ⟨h1, h2⟩ := hP
  unfold step at h
  split at h
  · simp at h
  cases a with
  | timer =>
    simp only [Option.some.injEq] at h
    subst h
    exact ⟨h1, fun _ => rfl⟩
  | mainStep =>
    simp only [mainStep] at h
    split at h
    · rename_i hm
      split at h
      · rename_i hd
        simp only [Option.some.injEq] at h
        subst h
        exact ⟨h1, fun _ => hd⟩
      · split at h
        · rename_i hst
          simp only [Option.some.injEq] at h
          subst h
          refine ⟨?_, fun hc => absurd hm hc⟩
          rcases h1 with ⟨_, hf, _⟩ | ⟨hl, ht, hi⟩
          · rw [hf] at hst; simp at hst
          · right; exact ⟨hl, ht, Nat.le_succ_of_le hi⟩
        · rename_i hst
          simp only [Option.some.injEq] at h
          subst h
          refine ⟨?_, fun hc => absurd hm hc⟩
          rcases h1 with ⟨hl, _, hi⟩ | ⟨_, ht, _⟩
          · right
            refine ⟨by simp [hl, hi], rfl, by simp⟩
          · rw [ht] at hst; simp at hst
    · rename_i d hm
      simp only [Option.some.injEq] at h
      subst h
      refine ⟨h1, fun _ => h2 (by rw [hm]; simp)⟩
    · simp at h
  | dispatch =>
    simp only [dispatchStep] at h
    split at h
    · simp at h
    · split at h
      · simp only [Option.some.injEq] at h
        subst h
        exact ⟨h1, h2⟩
      · simp at h
    · simp only [Option.some.injEq] at h
      subst h
      exact ⟨h1, h2⟩
  | doReturns i r e =>
    simp only [doReturnsStep] at h
    split at h
    · cases r <;>
      · simp only [Option.some.injEq] at h
        subst h
        exact ⟨h1, h2⟩
    · simp at h
  | exec i =>
    simp only [execStep] at h
    split at h
    all_goals
      first
      | (simp at h; done)
      | (split at h
         · simp only [Option.some.injEq] at h
           subst h
           exact ⟨h1, h2⟩
         · simp at h)
      | (simp only [Option.some.injEq] at h
         subst h
         exact ⟨h1, h2⟩)

theorem launchInv_init (expired : Bool) : LaunchInv (Sys.init expired) :=
  ⟨Or.inl ⟨rfl, rfl, rfl⟩, fun h => absurd rfl h⟩

/-- Once `main` has left the `select`, it never returns to it and nothing is launched. -/
theorem finished_step (N : Nat) (L : List Nat) (a : Action) (s s2 : Sys)
    (hP : s.main ≠ .selecting ∧ s.launchedAt = L) (h : step N a s = some s2) :
    s2.main ≠ .selecting ∧ s2.launchedAt = L := by
  obtain ⟨h1, h2⟩ := hP
  unfold step at h
  split at h
  · simp at h
  cases a with
  | timer =>
    simp only [Option.some.injEq] at h
    subst h
    exact ⟨h1, h2⟩
  | mainStep =>
    simp only [mainStep] at h
    split at h
    · rename_i hm
      exact absurd hm h1
    · simp only [Option.some.injEq] at h
      subst h
      exact ⟨by simp, h2⟩
    · simp at h
  | dispatch =>
    simp only [dispatchStep] at h
    split at h
    · simp at h
    · split at h
      · simp only [Option.some.injEq] at h
        subst h
        exact ⟨h1, h2⟩
      · simp at h
    · simp only [Option.some.injEq] at h
      subst h
      exact ⟨h1, h2⟩
  | doReturns i r e =>
    simp only [doReturnsStep] at h
    split at h
    · cases r <;>
      · simp only [Option.some.injEq] at h
        subst h
        exact ⟨h1, h2⟩
    · simp at h
  | exec i =>
    simp only [execStep] at h
    split at h
    all_goals
      first
      | (simp at h; done)
      | (split at h
         · simp only [Option.some.injEq] at h
           subst h
           exact ⟨h1, h2⟩
         · simp at h)
      | (simp only [Option.some.injEq] at h
         subst h
         exact ⟨h1, h2⟩)
theorem single_of_get? {l : List ExecPc} {i : Nat} {pc : ExecPc} (hl : l.length ≤ 1)
    (h : l.get? i = some pc) : l = [pc] ∧ i = 0 := by
  match l, hl, h with
  | [x], _, h =>
    cases i with
    | zero => simp at h; exact ⟨by rw [h], rfl⟩
    | succ j => simp at h

theorem count_step (a : Action) (s s2 : Sys) (hP : SlotInv 1 s ∧ CountInv s)
    (h : step 1 a s = some s2) : SlotInv 1 s2 ∧ CountInv s2 := by
  refine ⟨slots_step 1 a s s2 hP.1 h, ?_⟩
  obtain ⟨⟨s1, s2', s3⟩, c1, c2, c3, c4, c5⟩ := hP
  have hlen : s.execs.length ≤ 1 := by omega
  unfold step at h
  split at h
  · simp at h
  cases a with
  | timer =>
    simp only [Option.some.injEq] at h
    subst h
    exact ⟨c1, c2, c3, c4, c5⟩
  | mainStep =>
    simp only [mainStep] at h
    split at h
    · rename_i hm
      split at h
      · simp only [Option.some.injEq] at h
        subst h
        refine ⟨c1, c2, c3, ?_, ?_⟩
        · intro d hd
          simp only [MainPc.copiedDurations.injEq] at hd
          subst hd
          simp only [midUpdate] at c1 ⊢
          rw [c1]; omega
        · intro c d hd; simp at hd
      · split at h
        · simp only [Option.some.injEq] at h
          subst h
          refine ⟨c1, c2, c3, ?_, ?_⟩
          · intro d hd; rw [hm] at hd; simp at hd
          · intro c d hd; rw [hm] at hd; simp at hd
        · simp only [Option.some.injEq] at h
          subst h
          refine ⟨c1, c2, c3, ?_, ?_⟩
          · intro d hd; rw [hm] at hd; simp at hd
          · intro c d hd; rw [hm] at hd; simp at hd
    · rename_i d hm
      simp only [Option.some.injEq] at h
      subst h
      refine ⟨c1, c2, c3, ?_, ?_⟩
      · intro d2 hd; simp at hd
      · intro c d2 hd
        simp only [MainPc.returned.injEq] at hd
        obtain ⟨hc, hd⟩ := hd
        subst hc; subst hd
        exact c4 d hm
    · simp at h
  | dispatch =>
    simp only [dispatchStep] at h
    split at h
    · simp at h
    · split at h
      · simp only [Option.some.injEq] at h
        subst h
        exact ⟨c1, c2, c3, c4, c5⟩
      · simp at h
    · rename_i hd
      have hnil : s.execs = [] := by
        simp only [hd, if_true] at s2'
        exact List.length_eq_zero.1 (by omega)
      simp only [Option.some.injEq] at h
      subst h
      simp only [midUpdate, hnil] at c1 c2 c3 ⊢
      refine ⟨by simpa using c1, ?_, ?_, c4, c5⟩
      · intro e c hc; simp at hc
      · intro e ds hc; simp at hc
  | doReturns i r e =>
    simp only [doReturnsStep] at h
    split at h
    · rename_i hget
      obtain ⟨hex, hi⟩ := single_of_get? hlen hget
      subst hi
      cases r <;>
      · simp only [Option.some.injEq] at h
        subst h
        simp only [midUpdate, hex] at c1 c2 c3 ⊢
        refine ⟨by simpa using c1, ?_, ?_, c4, c5⟩
        · intro e c hc; simp at hc
        · intro e ds hc; simp at hc
    · simp at h
  | exec i =>
    simp only [execStep] at h
    split at h
    all_goals
      first
      | (simp at h; done)
      | skip
    all_goals rename_i hget
    all_goals obtain ⟨hex, hi⟩ := single_of_get? hlen hget
    all_goals subst hi
    · -- panicking
      split at h
      · simp only [Option.some.injEq] at h
        subst h
        simp only [midUpdate, hex] at c1 c2 c3 ⊢
        refine ⟨by simpa using c1, ?_, ?_, c4, c5⟩
        · intro e c hc; simp at hc
        · intro e ds hc; simp at hc
      · simp at h
    · -- measured
      simp only [Option.some.injEq] at h
      subst h
      simp only [midUpdate, hex] at c1 c2 c3 ⊢
      refine ⟨by simpa using c1, ?_, ?_, c4, c5⟩
      · intro e c hc; simp at hc; exact hc.2
      · intro e ds hc; simp at hc
    · -- loadedCounter
      rename_i e c
      have hc0 : c = s.requestsCounter := c2 e c (by rw [hex]; simp)
      simp only [Option.some.injEq] at h
      subst h
      simp only [midUpdate, hex] at c1 c2 c3 ⊢
      refine ⟨?_, ?_, ?_, ?_, c5⟩
      · simp [midUpdate] at c1 ⊢; omega
      · intro e2 c2' hc; simp at hc
      · intro e2 ds hc; simp at hc
      · intro d hd
        have := c4 d hd
        simp only at this ⊢
        omega
    · -- counted
      simp only [Option.some.injEq] at h
      subst h
      simp only [midUpdate, hex] at c1 c2 c3 ⊢
      refine ⟨by simpa using c1, ?_, ?_, c4, c5⟩
      · intro e c hc; simp at hc
      · intro e ds hc; simp at hc; exact hc.2
    · -- loadedDurations
      rename_i e ds
      have hd0 : ds = s.requestsDurations := c3 e ds (by rw [hex]; simp)
      simp only [Option.some.injEq] at h
      subst h
      simp only [midUpdate, hex] at c1 c2 c3 ⊢
      refine ⟨?_, ?_, ?_, c4, c5⟩
      · simp [midUpdate] at c1 ⊢; rw [hd0]; omega
      · intro e2 c2' hc; simp at hc
      · intro e2 ds2 hc; simp at hc
    · -- appended
      split at h
      · simp only [Option.some.injEq] at h
        subst h
        simp only [midUpdate, hex] at c1 c2 c3 ⊢
        refine ⟨by simpa using c1, ?_, ?_, c4, c5⟩
        · intro e c hc; simp at hc
        · intro e ds hc; simp at hc
      · simp at h

theorem countInv_init (expired : Bool) : CountInv (Sys.init expired) := by
  refine ⟨by simp [Sys.init, midUpdate], ?_, ?_, ?_, ?_⟩ <;> intros <;> simp_all [Sys.init]

theorem midUpdate_le (s : Sys) : midUpdate s ≤ s.execs.length := by
  unfold midUpdate
  exact List.length_filter_le _ _

/-! ## Claims about the percentile reporter -/

/-- C9: for every sample collection with at least one sample and every percentile
label, the cut-off index computed on lines 95-102 is at least 0 and strictly less
than the sample count, so the slice expression of lines 104-111 is in bounds, its
result is not empty, and the bucket average is a quotient with a non-zero divisor
(never NaN). -/
theorem cutoff_in_bounds (p : Percentile) (durations : List Int) (h : 1 ≤ durations.length) :
    0 ≤ startLen p durations.length ∧ startLen p durations.length < durations.length ∧
    ∃ tail, sliceFrom (sortStable durations) (startLen p durations.length) = some tail ∧
      tail ≠ [] ∧ bucketAvg p durations = some (getAvg tail) ∧ getAvg tail ≠ F64.nan := by
  have hne : durations ≠ [] := by
    intro h0; subst h0; simp at h
  have hlt := startLen_lt p h
  refine ⟨Nat.zero_le _, hlt, (sortStable durations).drop (startLen p durations.length), ?_, ?_, ?_, ?_⟩
  · have hle : startLen p durations.length ≤ (sortStable durations).length := by
      rw [length_sortStable]; exact le_of_lt hlt
    simp [sliceFrom, hle]
  · exact (bucketAvg_eq p hne).2
  · exact (bucketAvg_eq p hne).1
  · exact getAvg_ne_nan (bucketAvg_eq p hne).2

/-- Witness of C9: one sample and the label 99.9. -/
theorem cutoff_in_bounds_witness :
    1 ≤ [(7 : Int)].length ∧ startLen .p999 [(7 : Int)].length < [(7 : Int)].length :=
  ⟨by decide, (cutoff_in_bounds .p999 [7] (by decide)).2.1⟩

/-- C6, counterexample: with 17001 samples the index computed for the label 99.9 is
16984, while `floor(17001 * 99.9 / 100)` is 16983. -/
theorem cutoff_not_floor :
    startLen .p999 17001 = 16984 ∧ cutoffSpec .p999 17001 = 16983 := by
  refine ⟨by decide, ?_⟩
  rw [cutoffSpec_eq]; decide

/-- C6, amended: for every sample count up to 17000 and every percentile label, the
index `int(float32(count) * c)` computed on lines 95-102 equals
`floor(count * p / 100)`. -/
theorem cutoff_eq_floor (p : Percentile) (count : Nat) (h : count ≤ 17000) :
    (startLen p count : Int) = cutoffSpec p count := by
  rw [cutoffSpec_eq, startLen_eq_floor p h]

/-- Witness of C6, amended: the largest covered count at the label 99.9. -/
theorem cutoff_eq_floor_witness :
    17000 ≤ 17000 ∧ (startLen .p999 17000 : Int) = cutoffSpec .p999 17000 :=
  ⟨le_rfl, cutoff_eq_floor .p999 17000 le_rfl⟩

/-- C5, counterexample: on the empty sample collection the reporter does compute its
statistics, and NaN is among the values it reports. -/
theorem report_empty_has_nan :
    ∃ r, report 0 [] = some r ∧ F64.nan ∈ r.statistics := by
  refine ⟨_, rfl, ?_⟩
  decide

/-- C5, amended: on the empty sample collection the reporter does not short-circuit
and does not fail: every cut-off index is 0, every slice expression is in bounds,
`getAvg` divides 0 by 0 in `float64`, and the report carries the request count it
was given together with NaN for the average and for each of the eight buckets. -/
theorem report_empty (requestCount : Int) :
    getAvg [] = F64.nan ∧ (∀ p, startLen p 0 = 0 ∧ bucketAvg p [] = some F64.nan) ∧
    report requestCount [] =
      some { requestCount := requestCount, avg := F64.nan,
             buckets := Percentile.all.map fun p => (p, F64.nan) } := by
  refine ⟨by decide, ?_, ?_⟩
  · intro p; cases p <;> decide
  · have h : bucketLines [] Percentile.all = some (Percentile.all.map fun p => (p, F64.nan)) := by
      decide
    have h2 : F64.div (F64.mul (F64.round (overallAvg [])) (.val 100)) (.val 100) = F64.nan := by
      decide
    simp [report, h, h2]
/-- C1, counterexample: for the samples 1, 1, 2 the reporter's average is the `float64`
next to 4/3, not `sum(samples)/count` = 4/3; and for 1003 samples of 9223372036853 ms,
whose sum exceeds `2^53`, the sum is rounded before the division and the average is
9223372036853 + 1/512, although `sum(samples)/count` = 9223372036853 is itself a
`float64` value. -/
theorem average_is_rounded :
    overallAvg [1, 1, 2] = F64.val (6004799503160661 / 2 ^ 52) ∧ mean [1, 1, 2] = 4 / 3 ∧
    overallAvg [1, 1, 2] ≠ F64.val (mean [1, 1, 2]) ∧
    overallAvg (List.replicate 1003 9223372036853) = F64.val (9223372036853 + 1 / 512) ∧
    mean (List.replicate 1003 9223372036853) = 9223372036853 := by
  have hm : mean [1, 1, 2] = ((4 : Nat) : ℚ) / ((3 : Nat) : ℚ) := by norm_num [mean]
  have h1 : overallAvg [1, 1, 2] = F64.val (6004799503160661 / 2 ^ 52) := by
    rw [overallAvg_eq_ofRat (by decide) (by decide) (by norm_num) (by norm_num), hm]
    exact ofRat_four_thirds
  refine ⟨h1, by norm_num [mean], ?_, ?_, ?_⟩
  · rw [h1, hm]
    intro h
    injection h with h
    norm_num at h
  · rw [overallAvg, sortStable_replicate]
    exact getAvg_replicate_1003
  · have := mean_replicate (n := 1003) (by decide) 9223372036853
    rw [this]; norm_num

/-- C1, amended: for every non-empty collection of non-negative latency samples whose
sum and count are at most `2^53`, given in any order, the overall average before the
rounding of line 94 is `sum(samples)/count` rounded once to `float64`, and for each
label the bucket value before rounding is the arithmetic mean of the ascending-sorted
samples from the cut-off index to the end, rounded once to `float64`; both are exact
whenever the mean is an integer. The sorted list is an ascending rearrangement of the
samples, the report depends only on the multiset of samples, and the printed average
is `math.Round` of the overall average, times 100, divided by 100. -/
theorem report_is_rounded_mean (samples : List Int) (hne : samples ≠ [])
    (h0 : ∀ x ∈ samples, 0 ≤ x) (hs : samples.sum ≤ 2 ^ 53) (hlen : samples.length ≤ 2 ^ 53) :
    overallAvg samples = F64.ofRat (mean samples) ∧
    (∀ p, bucketAvg p samples =
      some (F64.ofRat (mean ((sortStable samples).drop (startLen p samples.length))))) ∧
    (∀ z : Int, mean samples = z → overallAvg samples = F64.val z) ∧
    (∀ p (z : Int), mean ((sortStable samples).drop (startLen p samples.length)) = z →
      bucketAvg p samples = some (F64.val z)) ∧
    (sortStable samples).Sorted (· ≤ ·) ∧ (sortStable samples).Perm samples ∧
    (∀ (other : List Int) (requestCount : Int), other.Perm samples →
      report requestCount other = report requestCount samples) ∧
    ∀ requestCount, ∃ r, report requestCount samples = some r ∧
      r.requestCount = requestCount ∧
      r.avg = F64.div (F64.mul (F64.round (overallAvg samples)) (.val 100)) (.val 100) := by
  have hperm := perm_sortStable samples
  have h0s : ∀ x ∈ sortStable samples, 0 ≤ x := fun x hx => h0 x (hperm.mem_iff.1 hx)
  refine ⟨overallAvg_eq_ofRat hne h0 hs hlen, fun p => bucketAvg_eq_ofRat p hne h0 hs hlen,
    ?_, ?_, sorted_sortStable samples, hperm, fun _ requestCount h => report_perm h requestCount,
    ?_⟩
  · intro z hz
    rw [overallAvg_eq_ofRat hne h0 hs hlen]
    apply ofRat_mean_int h0 hz
    have h1 := mean_le_sum hne h0
    rw [hz] at h1
    have h2 : (z : ℚ) ≤ ((2 ^ 53 : Int) : ℚ) := le_trans h1 (by exact_mod_cast hs)
    exact_mod_cast h2
  · intro p z hz
    have hne2 := (bucketAvg_eq p hne).2
    have h0t : ∀ x ∈ (sortStable samples).drop (startLen p samples.length), 0 ≤ x :=
      fun x hx => h0s x (List.mem_of_mem_drop hx)
    rw [bucketAvg_eq_ofRat p hne h0 hs hlen]
    congr 1
    apply ofRat_mean_int h0t hz
    have h1 := mean_le_sum hne2 h0t
    rw [hz] at h1
    have hb := (sum_drop_bounds (sortStable samples) h0s (startLen p samples.length)).2
    rw [hperm.sum_eq] at hb
    have h2 : (z : ℚ) ≤ ((2 ^ 53 : Int) : ℚ) :=
      le_trans h1 (by exact_mod_cast le_trans hb hs)
    exact_mod_cast h2
  · intro requestCount
    obtain ⟨bs, hbs⟩ := bucketLines_some hne Percentile.all
    exact ⟨{ requestCount := requestCount
             avg := F64.div (F64.mul (F64.round (overallAvg samples)) (.val 100)) (.val 100)
             buckets := bs }, by simp only [report, hbs, Option.map_some'], rfl, rfl⟩

/-- Witness of C1, amended: the sample set of the specification, with overall average
55 and 50-bucket average 80. -/
theorem report_is_rounded_mean_witness :
    overallAvg [10, 20, 30, 40, 50, 60, 70, 80, 90, 100] = F64.val 55 ∧
    bucketAvg .p50 [10, 20, 30, 40, 50, 60, 70, 80, 90, 100] = some (F64.val 80) := by
  have h := report_is_rounded_mean [10, 20, 30, 40, 50, 60, 70, 80, 90, 100]
    (by decide) (by decide) (by norm_num) (by norm_num)
  have hsort : sortStable [10, 20, 30, 40, 50, 60, 70, 80, 90, 100] =
      [10, 20, 30, 40, 50, 60, 70, 80, 90, 100] := by decide
  have hcut : startLen .p50 10 = 5 := by decide
  refine ⟨?_, ?_⟩
  · have := h.2.2.1 55 (by norm_num [mean])
    rw [this]; norm_num
  · have := h.2.2.2.1 .p50 80 (by
      rw [hsort]
      simp only [List.length_cons, List.length_nil, Nat.zero_add, Nat.reduceAdd, hcut]
      norm_num [mean])
    rw [this]; norm_num

/-- C10, counterexample: for 2005 samples of 9223372036853 ms the 50-bucket holds 1003
samples, whose sum exceeds `2^53` and is rounded before the division, and its average
9223372036853 + 1/512 is above the 60-bucket average 9223372036853 and above the
maximum sample. -/
theorem bucket_above_next :
    bucketAvg .p50 (List.replicate 2005 9223372036853) =
      some (F64.val (9223372036853 + 1 / 512)) ∧
    bucketAvg .p60 (List.replicate 2005 9223372036853) = some (F64.val 9223372036853) ∧
    ¬ F64.le (F64.val (9223372036853 + 1 / 512)) (F64.val 9223372036853) ∧
    (∀ x ∈ List.replicate 2005 (9223372036853 : Int), x ≤ 9223372036853) ∧
    ¬ F64.le (F64.val (9223372036853 + 1 / 512)) (F64.ofInt 9223372036853) := by
  have hc50 : startLen .p50 2005 = 1002 := by decide
  have hc60 : startLen .p60 2005 = 1203 := by decide
  have hx : F64.ofInt 9223372036853 = F64.val 9223372036853 := by
    rw [ofInt_exact (by norm_num) (by norm_num)]; norm_num
  refine ⟨?_, ?_, ?_, ?_, ?_⟩
  · simp only [bucketAvg, sliceFrom, sortStable_replicate, List.length_replicate, hc50,
      List.drop_replicate, show (1002 : Nat) ≤ 2005 by decide, if_true, Option.map_some',
      Nat.reduceSub, getAvg_replicate_1003]
  · simp only [bucketAvg, sliceFrom, sortStable_replicate, List.length_replicate, hc60,
      List.drop_replicate, show (1203 : Nat) ≤ 2005 by decide, if_true, Option.map_some',
      Nat.reduceSub, getAvg_replicate_802]
  · simp only [F64.le]; norm_num
  · intro x hx; rw [List.eq_of_mem_replicate hx]
  · rw [hx]; simp only [F64.le]; norm_num

/-- C10, amended: for every non-empty collection of non-negative samples whose sum and
count are at most `2^53` and for labels `p ≤ q`, the cut-off index for `p` is at most
the one for `q`, the bucket average for `p` is at most the bucket average for `q`, and
the bucket average for `p` is at least the overall average and at most every upper
bound of the samples that is itself a sample (the maximum). -/
theorem bucket_averages_monotone (samples : List Int) (hne : samples ≠ [])
    (h0 : ∀ x ∈ samples, 0 ≤ x) (hs : samples.sum ≤ 2 ^ 53) (hlen : samples.length ≤ 2 ^ 53)
    (p q : Percentile) (hpq : p.label ≤ q.label) :
    startLen p samples.length ≤ startLen q samples.length ∧
    ∃ bp bq, bucketAvg p samples = some bp ∧ bucketAvg q samples = some bq ∧
      F64.le bp bq ∧ F64.le (overallAvg samples) bp ∧
      ∀ m ∈ samples, (∀ x ∈ samples, x ≤ m) → F64.le bp (F64.ofInt m) := by
  have hpos : 1 ≤ samples.length := Nat.pos_of_ne_zero fun h => hne (List.length_eq_zero.1 h)
  have hmono := startLen_mono hpq samples.length
  have hq : startLen q samples.length < (sortStable samples).length := by
    rw [length_sortStable]; exact startLen_lt q hpos
  have hp : startLen p samples.length < (sortStable samples).length := lt_of_le_of_lt hmono hq
  have hperm := perm_sortStable samples
  have h0s : ∀ x ∈ sortStable samples, 0 ≤ x := fun x hx => h0 x (hperm.mem_iff.1 hx)
  have h0t : ∀ k, ∀ x ∈ (sortStable samples).drop k, 0 ≤ x :=
    fun k x hx => h0s x (List.mem_of_mem_drop hx)
  refine ⟨hmono, _, _, bucketAvg_eq_ofRat p hne h0 hs hlen, bucketAvg_eq_ofRat q hne h0 hs hlen,
    ?_, ?_, ?_⟩
  · exact ofRat_mono (mean_nonneg (h0t _)) (mean_drop_mono (sorted_sortStable samples) hmono hq)
  · rw [overallAvg_eq_ofRat hne h0 hs hlen, ← mean_perm hperm]
    exact ofRat_mono (mean_nonneg h0s) (mean_le_mean_drop _ (sorted_sortStable samples) _ hp)
  · intro m hmem hm
    have hne2 := (bucketAvg_eq p hne).2
    have hm2 : ∀ x ∈ (sortStable samples).drop (startLen p samples.length), x ≤ m :=
      fun x hx => hm x (hperm.mem_iff.1 (List.mem_of_mem_drop hx))
    have hm0 : 0 ≤ m := h0 m hmem
    have hmsum : m ≤ samples.sum := List.single_le_sum h0 m hmem
    have hle := mean_le_of_le hne2 hm2
    have hmono2 := ofRat_mono (mean_nonneg (h0t _)) hle
    have hnat : m.natAbs ≤ 2 ^ 53 := by omega
    have hcast : ((m.natAbs : Nat) : ℚ) = (m : ℚ) := by
      rw [Nat.cast_natAbs, abs_of_nonneg hm0]
    have hex : F64.ofRat (m : ℚ) = F64.val (m : ℚ) := by
      rw [← hcast]; exact ofRat_natCast hnat
    rw [ofInt_exact hm0 (le_trans hmsum hs), ← hex]
    exact hmono2

/-- Witness of C10, amended: the sample set of the specification at the labels 50 and 99.9. -/
theorem bucket_averages_monotone_witness :
    startLen .p50 [10, 20, 30, 40, 50, 60, 70, 80, 90, 100].length ≤
      startLen .p999 [10, 20, 30, 40, 50, 60, 70, 80, 90, 100].length :=
  (bucket_averages_monotone [10, 20, 30, 40, 50, 60, 70, 80, 90, 100] (by decide) (by decide)
    (by norm_num) (by norm_num) .p50 .p999 (by norm_num [Percentile.label])).1

/-! ## Claim about the header flags -/

/-- C8: for every list of header flag values, the parsing of lines 67-75 succeeds if
and only if each value splits on `": "` into exactly two parts; on success the map
sends each name to the value of the last flag value with that name; and if some
value does not split into exactly two parts, as `"X-Foo=bar"` does not, the
program ends with the panic of line 72 during start-up, whatever the other flags,
the deadline and the schedule are, so that no state of the run exists and no request
is issued. -/
theorem parseHeaders_ok_iff (headers : List String) :
    ((∃ h, parseHeaders headers = .ok h) ↔ ∀ v ∈ headers, (split v ": ").length = 2) ∧
    (∀ h, parseHeaders headers = .ok h → ∀ name, h.get name = headerSpec headers name) ∧
    (∀ parseRequestURI parseDuration (f : Flags) expired sched, f.headers = headers →
      (∃ v ∈ headers, (split v ": ").length ≠ 2) →
      ∃ e, program parseRequestURI parseDuration f expired sched = .error e) ∧
    (split "X-Foo=bar" ": ").length ≠ 2 := by
  refine ⟨parseHeadersFrom_ok_iff headers [], ?_, ?_, by decide⟩
  · intro h hh name
    have := parseHeadersFrom_get headers [] h hh name
    rw [this]
    cases headerSpec headers name <;> simp [HeaderMap.get]
  · intro parseRequestURI parseDuration f expired sched hf hbad
    obtain ⟨e, he⟩ := startup_error_of_bad_header parseRequestURI parseDuration f (hf ▸ hbad)
    exact ⟨e, by simp [program, he, Except.map]⟩

/-- Witness of C8: three well-formed values with a repeated name, and the malformed
value of the specification. -/
theorem parseHeaders_ok_iff_witness :
    parseHeaders ["A: 1", "B: 2", "A: 3"] = .ok [("A", "3"), ("B", "2")] ∧
    HeaderMap.get [("A", "3"), ("B", "2")] "A" = headerSpec ["A: 1", "B: 2", "A: 3"] "A" ∧
    ∃ e, program (fun _ => true) (fun _ => some 60000)
      { goroutineCount := 1, headers := ["X-Foo=bar"], durationString := "1m",
        args := ["http://localhost/"] } false [.mainStep, .dispatch, .dispatch] = .error e :=
  ⟨rfl, (parseHeaders_ok_iff ["A: 1", "B: 2", "A: 3"]).2.1 _ rfl "A",
    (parseHeaders_ok_iff ["X-Foo=bar"]).2.2.1 _ _ _ false _ rfl ⟨"X-Foo=bar", by decide, by decide⟩⟩

/-! ## Claims about the run controller, the dispatcher and the executors -/

/-- C2: for every capacity `N` of the channel `limit` (in particular every `N ≥ 1`), in
every state the program can reach, the number of requests in flight is at most the
number of tokens in the channel, which is at most `N`. -/
theorem inFlight_le_limit (N : Nat) (s : Sys) (h : Reachable N s) :
    s.inFlight ≤ s.limit ∧ s.limit ≤ N ∧ s.inFlight ≤ N := by
  obtain ⟨h1, h2, _⟩ := slotInv_of_reachable h
  unfold Sys.inFlight
  omega

/-- Witness of C2: with one slot, the state after the first launch of an executor. -/
theorem inFlight_le_limit_witness :
    Reachable 1
      { deadline := false, main := .selecting, testAledyStarted := true, iterations := 1,
        launchedAt := [0], dispatcher := .sending, limit := 1, execs := [.calling],
        requestsCounter := 0, requestsDurations := [], warnings := [], crashed := false } ∧
    Sys.inFlight
      { deadline := false, main := .selecting, testAledyStarted := true, iterations := 1,
        launchedAt := [0], dispatcher := .sending, limit := 1, execs := [.calling],
        requestsCounter := 0, requestsDurations := [], warnings := [], crashed := false } ≤ 1 :=
  ⟨⟨false, [.mainStep, .dispatch, .dispatch], by decide⟩,
    (inFlight_le_limit 1 _ ⟨false, [.mainStep, .dispatch, .dispatch], rfl⟩).2.2⟩

/-- Lines 155-156 and the deferred calls of one executor, run without interference:
the counter grows by exactly one and exactly the measured sample is appended. -/
theorem lone_executor_records (N : Nat) (s : Sys) (e : Int) (hex : s.execs = [.measured e])
    (hend : s.ended = false) (hlim : 0 < s.limit) :
    run N [.exec 0, .exec 0, .exec 0, .exec 0, .exec 0] s =
      some { s with limit := s.limit - 1, execs := [],
                    requestsCounter := s.requestsCounter + 1,
                    requestsDurations := s.requestsDurations ++ [e] } := by
  have hend2 : s.crashed = false ∧ ∀ c d, s.main ≠ .returned c d := by
    unfold Sys.ended at hend
    cases hm : s.main <;> simp_all
  obtain ⟨hcr, hmain⟩ := hend2
  cases hm : s.main with
  | returned c d => exact absurd hm (hmain c d)
  | selecting => simp [run, step, execStep, Sys.ended, hex, hcr, hm, hlim]
  | copiedDurations d => simp [run, step, execStep, Sys.ended, hex, hcr, hm, hlim]

/-- With a single admission slot the channel serialises the executors: in every state
the program can reach, `requestsCounter` equals the length of `requestsDurations` plus
the number of executors between their two writes, which is 0 or 1. -/
theorem counter_tracks_samples (s : Sys) (h : Reachable 1 s) :
    s.requestsCounter = s.requestsDurations.length + midUpdate s ∧ midUpdate s ≤ 1 ∧
    (midUpdate s = 0 → s.requestsCounter = s.requestsDurations.length) := by
  have hinv : SlotInv 1 s ∧ CountInv s :=
    reachable_invariant (P := fun s => SlotInv 1 s ∧ CountInv s)
      (fun e => ⟨slotInv_init 1 e, countInv_init e⟩) count_step s h
  obtain ⟨⟨s1, s2, _⟩, c1, _, _, _, _⟩ := hinv
  have hm := midUpdate_le s
  refine ⟨c1, by omega, ?_⟩
  intro h0
  rw [c1, h0]; simp

/-- C3, evaluation at the failing input: with one slot the reporter reads the pair
`requestCount = 1`, `durations = []` when the deadline expires while the executor is
between line 155 and line 156; and with two slots two executors that both read the
counter before either writes it leave `requestsCounter = 1` next to two samples once
both have finished. -/
theorem reporter_reads_unequal_pair :
    (∃ s, Reachable 1 s ∧ s.main = .returned 1 []) ∧
    (∃ s, Reachable 2 s ∧ s.execs = [] ∧ s.requestsCounter = 1 ∧ s.requestsDurations = [5, 6]) := by
  refine ⟨⟨_, ⟨false, [.mainStep, .dispatch, .dispatch, .doReturns 0 .response 7, .exec 0,
      .exec 0, .timer, .mainStep, .mainStep], rfl⟩, rfl⟩,
    ⟨_, ⟨false, [.mainStep, .dispatch, .dispatch, .dispatch, .dispatch,
      .doReturns 0 .response 5, .doReturns 1 .response 6, .exec 0, .exec 1, .exec 0, .exec 1,
      .exec 0, .exec 0, .exec 1, .exec 1, .exec 0, .exec 0], rfl⟩, rfl, rfl, rfl⟩⟩

/-- C4, evaluation at the failing input: when `client.Do` returns an error and a nil
response, the executor logs the warning, line 152 dereferences the nil response, the
deferred receive releases the slot, and the panic ends the process: no sample is
recorded, the counter is unchanged and no further step of any goroutine exists. -/
theorem failed_request_crashes (err : String) (elapsed : Int) :
    run 1 [.mainStep, .dispatch, .dispatch, .doReturns 0 (.errorNoResponse err) elapsed, .exec 0]
      (Sys.init false) =
      some { deadline := false, main := .selecting, testAledyStarted := true, iterations := 1,
             launchedAt := [0], dispatcher := .sending, limit := 0, execs := [],
             requestsCounter := 0, requestsDurations := [], warnings := [err],
             crashed := true } ∧
    ∀ a, step 1 a
      { deadline := false, main := .selecting, testAledyStarted := true, iterations := 1,
        launchedAt := [0], dispatcher := .sending, limit := 0, execs := [],
        requestsCounter := 0, requestsDurations := [], warnings := [err],
        crashed := true } = none :=
  ⟨rfl, fun _ => rfl⟩

/-- C7: in every state the program can reach, `startTest` has been launched at most
once, and only in the first loop iteration; the flag `testAledyStarted` is set exactly
when the launch has happened; a completed loop iteration implies the launch; `main`
leaves the loop only when the deadline has expired; and from then on `main` never
re-enters the loop and nothing is launched. -/
theorem dispatcher_launched_once (N : Nat) (s : Sys) (h : Reachable N s) :
    s.launchedAt.length ≤ 1 ∧ (∀ i ∈ s.launchedAt, i = 0) ∧
    (s.testAledyStarted = true ↔ s.launchedAt ≠ []) ∧
    (1 ≤ s.iterations → s.launchedAt = [0]) ∧
    (s.main ≠ .selecting → s.deadline = true) ∧
    ∀ sched s2, s.main ≠ .selecting → run N sched s = some s2 →
      s2.main ≠ .selecting ∧ s2.launchedAt = s.launchedAt := by
  have hinv : LaunchInv s := reachable_invariant launchInv_init (launch_step N) s h
  obtain ⟨h1, h2⟩ := hinv
  refine ⟨?_, ?_, ?_, ?_, h2, ?_⟩
  · rcases h1 with ⟨hl, _, _⟩ | ⟨hl, _, _⟩ <;> simp [hl]
  · rcases h1 with ⟨hl, _, _⟩ | ⟨hl, _, _⟩ <;> simp [hl]
  · rcases h1 with ⟨hl, ht, _⟩ | ⟨hl, ht, _⟩ <;> simp [hl, ht]
  · rcases h1 with ⟨_, _, hi⟩ | ⟨hl, _, _⟩
    · intro h; omega
    · intro _; exact hl
  · intro sched s2 hm hrun
    exact run_invariant (finished_step N s.launchedAt) sched s s2 ⟨hm, rfl⟩ hrun

/-- Witness of C7: three loop iterations before the deadline, then the two reads. -/
theorem dispatcher_launched_once_witness :
    Reachable 1
      { deadline := true, main := .returned 0 [], testAledyStarted := true, iterations := 3,
        launchedAt := [0], dispatcher := .sending, limit := 0, execs := [],
        requestsCounter := 0, requestsDurations := [], warnings := [], crashed := false } ∧
    ([0] : List Nat).length ≤ 1 :=
  ⟨⟨false, [.mainStep, .mainStep, .mainStep, .timer, .mainStep, .mainStep], by decide⟩,
    (dispatcher_launched_once 1 _
      ⟨false, [.mainStep, .mainStep, .mainStep, .timer, .mainStep, .mainStep], rfl⟩).1⟩

end SimpleHTTPST

